import Mathlib

/-!
# Option Chain Signal & Snapshot Pipeline — verification development

A shallow embedding of the core pipeline of `stockServs`
(`src/services/option_clock_service.py` and `src/services/data_scheduler.py`):
the expiry/strike resolver, the quote aggregator, the signal classifier,
the snapshot store operations, and the scheduler tick, together with
theorems settling the specification claims about them.

Numeric values are modelled as `ℚ` (Python floats are used by the source as
exact small decimals; no claim depends on binary-float rounding except
Python's `round`, which is modelled exactly as round-half-to-even on the
represented value), dates as year/month/day triples with proleptic-Gregorian
day counts, and timestamps as integer epoch seconds.
-/

namespace StockServs

/-! ## Expiry & Strike Resolver (`option_clock_service.py`) -/

/-- Python's builtin `round(x)` : nearest integer, ties to even
(banker's rounding).  Used by `get_atm_strike` as `round(spot_price / step)`
and (with a scale factor) by `round(pcr, 3)`. -/
def pyRound (q : ℚ) : ℤ :=
  if q - ⌊q⌋ < 1/2 then ⌊q⌋
  else if 1/2 < q - ⌊q⌋ then ⌊q⌋ + 1
  else if ⌊q⌋ % 2 = 0 then ⌊q⌋ else ⌊q⌋ + 1

/-- Python's `round(x, 3)`: round to 3 decimal places, ties to even. -/
def pyRound3 (q : ℚ) : ℚ := (pyRound (q * 1000) : ℚ) / 1000

/-- Python's `int(x)` on a numeric value: truncation toward zero. -/
def pyInt (q : ℚ) : ℤ := if 0 ≤ q then ⌊q⌋ else ⌈q⌉

/-- `get_atm_strike(spot_price, step) = round(spot_price / step) * step`. -/
def get_atm_strike (spot_price : ℚ) (step : ℤ) : ℚ :=
  (pyRound (spot_price / (step : ℚ)) : ℚ) * (step : ℚ)

/-- `generate_strikes(atm_strike, step, count)`:
`[atm_strike + i*step for i in range(-count, count+1)]`. -/
def generate_strikes (atm_strike : ℚ) (step : ℚ) (count : ℕ) : List ℚ :=
  (List.range (2 * count + 1)).map
    (fun i => atm_strike + (((i : ℤ) : ℚ) - (count : ℚ)) * step)

/-! ### Dates

Python `datetime.date` objects are embedded as year/month/day triples; date
arithmetic (`timedelta`, `weekday`) goes through the proleptic-Gregorian
serial day number (day 1 = 0001-01-01, a Monday, exactly as in CPython's
`date.toordinal`). -/

structure PyDate where
  year : ℕ
  month : ℕ
  day : ℕ
deriving DecidableEq

/-- Gregorian leap-year rule (as in Python's `calendar.isleap`). -/
def isLeapYear (y : ℕ) : Bool := y % 4 = 0 && (y % 100 ≠ 0 || y % 400 = 0)

/-- Number of days in a month of a given year. -/
def daysInMonth (y m : ℕ) : ℕ :=
  if m = 2 then (if isLeapYear y then 29 else 28)
  else if m = 4 ∨ m = 6 ∨ m = 9 ∨ m = 11 then 30
  else 31

/-- Number of leap years in `1..y`. -/
def leapsBefore (y : ℕ) : ℕ := y / 4 - y / 100 + y / 400

/-- Days in all years strictly before year `y` (years `1..y-1`). -/
def daysBeforeYear (y : ℕ) : ℕ := 365 * (y - 1) + leapsBefore (y - 1)

/-- Days in the months of year `y` strictly before month `m`. -/
def daysBeforeMonth (y m : ℕ) : ℕ :=
  ((List.range (m - 1)).map (fun i => daysInMonth y (i + 1))).sum

/-- `date.toordinal()`: serial day number, 0001-01-01 ↦ 1. -/
def toSerial (d : PyDate) : ℕ :=
  daysBeforeYear d.year + daysBeforeMonth d.year d.month + d.day

/-- `date.weekday()`: Monday = 0 … Sunday = 6 (0001-01-01 is a Monday). -/
def pyWeekday (d : PyDate) : ℕ := (toSerial d - 1) % 7

/-- A date is well-formed (month and day in range, year positive). -/
def ValidDate (d : PyDate) : Prop :=
  1 ≤ d.year ∧ 1 ≤ d.month ∧ d.month ≤ 12 ∧ 1 ≤ d.day ∧ d.day ≤ daysInMonth d.year d.month

instance (d : PyDate) : Decidable (ValidDate d) := by
  unfold ValidDate; infer_instance

/-- `MONTH_MAP`: month number to three-letter name. -/
def MONTH_MAP (m : ℕ) : String :=
  match m with
  | 1 => "JAN" | 2 => "FEB" | 3 => "MAR" | 4 => "APR" | 5 => "MAY" | 6 => "JUN"
  | 7 => "JUL" | 8 => "AUG" | 9 => "SEP" | 10 => "OCT" | 11 => "NOV" | 12 => "DEC"
  | _ => ""

/-- `WEEKLY_MONTH_CODES`: 1-9 for Jan-Sep, O/N/D for Oct/Nov/Dec. -/
def WEEKLY_MONTH_CODES (m : ℕ) : String :=
  match m with
  | 1 => "1" | 2 => "2" | 3 => "3" | 4 => "4" | 5 => "5" | 6 => "6"
  | 7 => "7" | 8 => "8" | 9 => "9" | 10 => "O" | 11 => "N" | 12 => "D"
  | _ => ""

/-- `_is_monthly_expiry(expiry_date)`: is the date the last Thursday of its
month?  Computed exactly as in the source: take the last day of the month
(first day of the following month minus one day), step back
`(last_day.weekday() - 3) % 7` days (Python `%` is nonnegative here) to the
last Thursday, and compare.  Stepping back at most 6 days from the last day
of a month stays inside the month, so the result is the date
`(year, month, daysInMonth - back)`. -/
def isMonthlyExpiry (e : PyDate) : Bool :=
  let L := daysInMonth e.year e.month
  let lastDay : PyDate := ⟨e.year, e.month, L⟩
  let back : ℕ := (((pyWeekday lastDay : ℤ) - 3).emod 7).toNat
  let lastThursday : PyDate := ⟨e.year, e.month, L - back⟩
  e = lastThursday

/-- Spec-side characterisation, following the specification's words: the
expiry "is the last Thursday of its calendar month" — it falls on a Thursday
and no later valid day of the same month does.  Compared against the
source-translated `isMonthlyExpiry` in claim C6. -/
def IsLastThursday (e : PyDate) : Prop :=
  pyWeekday e = 3 ∧
  ∀ d2 : PyDate, d2.year = e.year → d2.month = e.month → ValidDate d2 →
    pyWeekday d2 = 3 → d2.day ≤ e.day

/-- Python `str(day).zfill(2)` for `day ≤ 99`. -/
def zfill2 (n : ℕ) : String := if n < 10 then "0" ++ toString n else toString n

/-- Python `s[-2:]`: the last two characters of a string. -/
def lastTwoChars (s : String) : String := String.mk ((s.toList.reverse.take 2).reverse)

/-- `format_option_symbol(index, expiry, strike, option_type)`:
monthly expiry → `NSE:<INDEX><YY><MMM><STRIKE><CE/PE>`;
weekly expiry → `NSE:<INDEX><YY><month-code><DD><STRIKE><CE/PE>`. -/
def format_option_symbol (index : String) (expiry : PyDate) (strike : ℚ)
    (option_type : String) : String :=
  let year := lastTwoChars (toString expiry.year)
  let strike_str := toString (pyInt strike)
  if isMonthlyExpiry expiry then
    "NSE:" ++ index ++ year ++ MONTH_MAP expiry.month ++ strike_str ++ option_type
  else
    "NSE:" ++ index ++ year ++ WEEKLY_MONTH_CODES expiry.month ++ zfill2 expiry.day
      ++ strike_str ++ option_type

/-! ## Quote Aggregator (`_process_option_data`, `_calculate_max_pain`)

A raw quote item is the provider's `{"n": symbol, "v": {...}}` record; absent
JSON keys are modelled by the `.get(key, 0)` default 0 already applied, and
Python's truthiness chains `a or b` on numbers by `pyOr`. -/

/-- Python `a or b` on numbers: `a` if `a` is truthy (nonzero), else `b`. -/
def pyOr (a b : ℚ) : ℚ := if a ≠ 0 then a else b

structure QuoteV where
  oi : ℚ
  open_interest : ℚ
  pdoi : ℚ
  lp : ℚ
  prev_close_price : ℚ
  vol_traded_today : ℚ
  volume : ℚ
  ch : ℚ
  chp : ℚ
deriving DecidableEq

structure QuoteItem where
  n : String
  v : QuoteV
deriving DecidableEq

/-- One per-strike entry of `strike_breakdown`. -/
structure StrikeData where
  call_oi : ℚ
  put_oi : ℚ
  call_oi_change : ℚ
  put_oi_change : ℚ
  call_ltp : ℚ
  put_ltp : ℚ
  call_volume : ℚ
  put_volume : ℚ
  call_change : ℚ
  put_change : ℚ
  call_pChange : ℚ
  put_pChange : ℚ
  call_identifier : String
  put_identifier : String
deriving DecidableEq

/-- The fresh all-zero entry inserted when a strike is first seen. -/
def StrikeData.init : StrikeData :=
  ⟨0, 0, 0, 0, 0, 0, 0, 0, 0, 0, 0, 0, "", ""⟩

/-- `strike_breakdown` is a Python dict keyed by strike: an association list
in insertion order. -/
abbrev Breakdown := List (ℚ × StrikeData)

/-- `if strike not in strike_breakdown: strike_breakdown[strike] = {...zeros}` -/
def bdInsertDefault (bd : Breakdown) (k : ℚ) : Breakdown :=
  if (bd.lookup k).isSome then bd else bd ++ [(k, StrikeData.init)]

/-- In-place update of the entry at key `k` (keys are unique). -/
def bdUpdate : Breakdown → ℚ → (StrikeData → StrikeData) → Breakdown
  | [], _, _ => []
  | (s, d) :: rest, k, f =>
    if s = k then (s, f d) :: rest else (s, d) :: bdUpdate rest k f

/-- Mutable state of the `for item in option_data` loop. -/
structure AggState where
  total_call_oi : ℚ
  total_put_oi : ℚ
  strike_breakdown : Breakdown
  highest_call_oi : ℚ × ℚ
  highest_put_oi : ℚ × ℚ
deriving DecidableEq

/-- Loop-entry state: totals 0, empty breakdown, and the placeholders
`highest_call_oi = {"strike": 0, "oi": 0}`, likewise for puts. -/
def initAggState : AggState := ⟨0, 0, [], (0, 0), (0, 0)⟩

/-- One iteration of the aggregation loop: resolve the item's symbol through
`symbol_strike_map` (unknown symbols are skipped), extract the fields with
their `or`-fallbacks, insert the strike's zero entry if absent, and update
the side the item belongs to. -/
def processItem (smap : List (String × ℚ × String)) (st : AggState)
    (item : QuoteItem) : AggState :=
  match smap.lookup item.n with
  | none => st
  | some (strike, option_type) =>
    let oi := pyOr item.v.oi item.v.open_interest
    let pdoi := item.v.pdoi
    let oi_change := oi - pdoi
    let ltp := pyOr item.v.lp item.v.prev_close_price
    let volume := pyOr item.v.vol_traded_today item.v.volume
    let change := item.v.ch
    let pChange := item.v.chp
    let bd := bdInsertDefault st.strike_breakdown strike
    if option_type = "CE" then
      { st with
        total_call_oi := st.total_call_oi + oi
        strike_breakdown := bdUpdate bd strike (fun d =>
          { d with call_oi := oi, call_oi_change := oi_change, call_ltp := ltp,
                   call_volume := volume, call_change := change,
                   call_pChange := pChange, call_identifier := item.n })
        highest_call_oi :=
          if st.highest_call_oi.2 < oi then (strike, oi) else st.highest_call_oi }
    else
      { st with
        total_put_oi := st.total_put_oi + oi
        strike_breakdown := bdUpdate bd strike (fun d =>
          { d with put_oi := oi, put_oi_change := oi_change, put_ltp := ltp,
                   put_volume := volume, put_change := change,
                   put_pChange := pChange, put_identifier := item.n })
        highest_put_oi :=
          if st.highest_put_oi.2 < oi then (strike, oi) else st.highest_put_oi }

/-- The whole `for item in option_data` loop. -/
def processItems (smap : List (String × ℚ × String)) :
    AggState → List QuoteItem → AggState
  | st, [] => st
  | st, item :: rest => processItems smap (processItem smap st item) rest

/-- Total pain at candidate `strike`: `Σ_{strike > s} (strike - s) * call_oi(s)
+ Σ_{strike < s} (s - strike) * put_oi(s)` over the breakdown entries. -/
def totalPain (bd : Breakdown) (strike : ℚ) : ℚ :=
  (bd.map (fun sd =>
    (if strike > sd.1 then (strike - sd.1) * sd.2.call_oi else 0) +
    (if strike < sd.1 then (sd.1 - strike) * sd.2.put_oi else 0))).sum

/-- The `for strike in strikes` minimisation loop of `_calculate_max_pain`.
`minPain = none` models the initial `float('inf')` (every finite pain is
below it); the update condition is the strict `total_pain < min_pain`. -/
def maxPainGo (bd : Breakdown) : List ℚ → Option ℚ → ℚ → ℚ
  | [], _, best => best
  | k :: rest, minPain, best =>
    let p := totalPain bd k
    match minPain with
    | none => maxPainGo bd rest (some p) k
    | some m =>
      if p < m then maxPainGo bd rest (some p) k
      else maxPainGo bd rest minPain best

/-- `_calculate_max_pain(strike_breakdown, strikes)`; the initial candidate is
`strikes[len(strikes) // 2]` if `strikes` is nonempty, else 0. -/
def calculate_max_pain (bd : Breakdown) (strikes : List ℚ) : ℚ :=
  maxPainGo bd strikes none (strikes.getD (strikes.length / 2) 0)

/-- The aggregated result dict of `_process_option_data` (the `timestamp`
key, set to `datetime.now()`, carries no information for the claims and is
omitted). -/
structure ProcessResult where
  symbol : String
  expiry : PyDate
  spot_price : ℚ
  prev_close : ℚ
  price_change : ℚ
  price_change_pct : ℚ
  total_call_oi : ℚ
  total_put_oi : ℚ
  pcr : ℚ
  max_pain_strike : ℚ
  highest_call_oi_strike : ℚ
  highest_put_oi_strike : ℚ
  strike_breakdown : Breakdown
deriving DecidableEq

/-- `_process_option_data(option_data, spot_price, prev_close, symbol, expiry,
strikes, symbol_strike_map)`. -/
def process_option_data (option_data : List QuoteItem) (spot_price prev_close : ℚ)
    (symbol : String) (expiry : PyDate) (strikes : List ℚ)
    (symbol_strike_map : List (String × ℚ × String)) : ProcessResult :=
  let st := processItems symbol_strike_map initAggState option_data
  let pcr := if st.total_call_oi > 0 then st.total_put_oi / st.total_call_oi else 0
  { symbol := symbol
    expiry := expiry
    spot_price := spot_price
    prev_close := prev_close
    price_change := spot_price - prev_close
    price_change_pct :=
      if prev_close ≠ 0 then (spot_price - prev_close) / prev_close * 100 else 0
    total_call_oi := st.total_call_oi
    total_put_oi := st.total_put_oi
    pcr := pyRound3 pcr
    max_pain_strike := calculate_max_pain st.strike_breakdown strikes
    highest_call_oi_strike := st.highest_call_oi.1
    highest_put_oi_strike := st.highest_put_oi.1
    strike_breakdown := st.strike_breakdown }

/-! ## Signal Classifier (`determine_signal`)

`OptionClockSnapshot` rows: the numeric columns are written non-null by
`create_snapshot`, so the defensive `previous.total_call_oi or 0` guards of
the source are the identity and the columns are modelled as plain `ℚ`.
The serialized `strike_data` JSON column is omitted (no claim reads it). -/

structure Snapshot where
  timestamp : ℤ
  symbol : String
  expiry_date : PyDate
  total_call_oi : ℚ
  total_put_oi : ℚ
  call_oi_change : ℚ
  put_oi_change : ℚ
  pcr : ℚ
  pcr_change : ℚ
  spot_price : ℚ
  price_change : ℚ
  price_change_pct : ℚ
  signal : String
  signal_strength : String
  max_pain_strike : ℚ
  highest_call_oi_strike : ℚ
  highest_put_oi_strike : ℚ
deriving DecidableEq

/-- `determine_signal(current, previous) -> (signal, strength)`.
`current` is the dict produced by `_process_option_data`, which always
carries the `price_change` and `pcr` keys, so the dict-defaults
`current.get("price_change", 0)` and `current.get("pcr", 1)` never fire. -/
def determine_signal (current : ProcessResult) (previous : Option Snapshot) :
    String × String :=
  let price_change := current.price_change
  let pcr := current.pcr
  let total_oi_change : ℚ :=
    match previous with
    | some prev =>
      (current.total_call_oi - prev.total_call_oi) +
        (current.total_put_oi - prev.total_put_oi)
    | none => 0
  let price_up := price_change > 0
  let oi_up := total_oi_change > 0
  let signal :=
    if price_up ∧ oi_up then "LONG_BUILDUP"
    else if price_up ∧ ¬oi_up then "SHORT_COVERING"
    else if ¬price_up ∧ oi_up then "SHORT_BUILDUP"
    else "LONG_UNWINDING"
  let strength :=
    if pcr > 1.5 ∨ pcr < 0.6 then "STRONG"
    else if pcr > 1.2 ∨ pcr < 0.8 then "MODERATE"
    else "WEAK"
  (signal, strength)

/-! ### Derived views of the aggregation loop, for stating claims

`callEntries`/`putEntries` list, in processing order, the (strike, effective
OI) pairs of the quote items that resolve through `symbol_strike_map` to the
call resp. put side — exactly the updates the loop applies to its running
`highest_call_oi` / `highest_put_oi` trackers; `scanBest` is that running
strictly-greater maximum scan. -/

def callEntries (smap : List (String × ℚ × String)) : List QuoteItem → List (ℚ × ℚ)
  | [] => []
  | item :: rest =>
    match smap.lookup item.n with
    | none => callEntries smap rest
    | some (strike, ot) =>
      if ot = "CE" then (strike, pyOr item.v.oi item.v.open_interest) :: callEntries smap rest
      else callEntries smap rest

def putEntries (smap : List (String × ℚ × String)) : List QuoteItem → List (ℚ × ℚ)
  | [] => []
  | item :: rest =>
    match smap.lookup item.n with
    | none => putEntries smap rest
    | some (strike, ot) =>
      if ot = "CE" then putEntries smap rest
      else (strike, pyOr item.v.oi item.v.open_interest) :: putEntries smap rest

def scanBest {α β : Type} [LinearOrder β] : (α × β) → List (α × β) → α × β
  | best, [] => best
  | best, e :: rest => scanBest (if best.2 < e.2 then e else best) rest

/-! ## Snapshot Store (`create_daily_summary`, `cleanup_old_snapshots`)

The two tables are modelled as in-memory lists; `create_daily_summary`
receives the day's snapshot rows exactly as the source's query returns them
(the `symbol`/day filter applied, ascending timestamp order). -/

structure DailySummary where
  trade_date : PyDate
  symbol : String
  expiry_date : PyDate
  opening_call_oi : ℚ
  opening_put_oi : ℚ
  opening_pcr : ℚ
  opening_spot : ℚ
  closing_call_oi : ℚ
  closing_put_oi : ℚ
  closing_pcr : ℚ
  closing_spot : ℚ
  call_oi_day_change : ℚ
  put_oi_day_change : ℚ
  pcr_day_change : ℚ
  spot_day_change : ℚ
  spot_day_change_pct : Option ℚ
  max_pain_strike : ℚ
  highest_call_oi_strike : ℚ
  highest_put_oi_strike : ℚ
  dominant_signal : Option String
deriving DecidableEq

/-- `signal_counts[s] = signal_counts.get(s, 0) + 1` on an insertion-ordered
dict: increment the existing entry, else append a new one at the end. -/
def bumpCount : List (String × ℕ) → String → List (String × ℕ)
  | [], s => [(s, 1)]
  | (t, n) :: rest, s =>
    if t = s then (t, n + 1) :: rest else (t, n) :: bumpCount rest s

/-- The `for s in snapshots: if s.signal: count` loop (over the already
truthiness-filtered signal list). -/
def signalCountsAux : List (String × ℕ) → List String → List (String × ℕ)
  | acc, [] => acc
  | acc, s :: rest => signalCountsAux (bumpCount acc s) rest

def signalCounts (sigs : List String) : List (String × ℕ) :=
  signalCountsAux [] sigs

/-- The scan inside Python's `max(counts, key=counts.get)`: keep the current
best, replace it only on a strictly greater count, so the first key attaining
the maximum wins. -/
def maxKeyGo (s : String) (n : ℕ) : List (String × ℕ) → String
  | [] => s
  | (t, m) :: rest => if n < m then maxKeyGo t m rest else maxKeyGo s n rest

/-- `max(signal_counts, key=signal_counts.get) if signal_counts else None`. -/
def pyMaxByCount : List (String × ℕ) → Option String
  | [] => none
  | (s, n) :: rest => some (maxKeyGo s n rest)

/-- The assignment block of `create_daily_summary`: overwrite the listed
columns of the (fresh or found) row.  `trade_date`, `symbol` and
`expiry_date` are set only at row creation and are not touched here;
`spot_day_change_pct` is assigned only when the opening spot is truthy. -/
def summaryWithValues (base : DailySummary) (opening closing : Snapshot)
    (dominant : Option String) : DailySummary :=
  { base with
    opening_call_oi := opening.total_call_oi
    opening_put_oi := opening.total_put_oi
    opening_pcr := opening.pcr
    opening_spot := opening.spot_price
    closing_call_oi := closing.total_call_oi
    closing_put_oi := closing.total_put_oi
    closing_pcr := closing.pcr
    closing_spot := closing.spot_price
    call_oi_day_change := closing.total_call_oi - opening.total_call_oi
    put_oi_day_change := closing.total_put_oi - opening.total_put_oi
    pcr_day_change := closing.pcr - opening.pcr
    spot_day_change := closing.spot_price - opening.spot_price
    spot_day_change_pct :=
      if opening.spot_price ≠ 0 then
        some ((closing.spot_price - opening.spot_price) / opening.spot_price * 100)
      else base.spot_day_change_pct
    max_pain_strike := closing.max_pain_strike
    highest_call_oi_strike := closing.highest_call_oi_strike
    highest_put_oi_strike := closing.highest_put_oi_strike
    dominant_signal := dominant }

/-- `OptionClockDailySummary(trade_date=..., symbol=..., expiry_date=...)`:
a fresh row; every other column is assigned by `summaryWithValues` before
commit except `spot_day_change_pct`, whose column default is NULL. -/
def freshSummary (trade_date : PyDate) (symbol : String) (expiry_date : PyDate) :
    DailySummary :=
  ⟨trade_date, symbol, expiry_date,
   0, 0, 0, 0, 0, 0, 0, 0, 0, 0, 0, 0, none, 0, 0, 0, none⟩

/-- Update the first row matching the (trade_date, symbol) key. -/
def updateFirstSummary (rows : List DailySummary) (d : PyDate) (sym : String)
    (f : DailySummary → DailySummary) : List DailySummary :=
  match rows with
  | [] => []
  | r :: rest =>
    if r.trade_date = d ∧ r.symbol = sym then f r :: rest
    else r :: updateFirstSummary rest d sym f

/-- `create_daily_summary(symbol, trade_date)` given the day's snapshots
`snaps` (the source's filtered, timestamp-ascending query result) acting on
the summary table `summaries`.  Returns the new table and the returned row
(`None` when the day has no snapshots). -/
def create_daily_summary (symbol : String) (trade_date : PyDate)
    (snaps : List Snapshot) (summaries : List DailySummary) :
    List DailySummary × Option DailySummary :=
  match snaps with
  | [] => (summaries, none)
  | s0 :: rest =>
    let opening := s0
    let closing := rest.getLastD s0
    let sigs := (s0 :: rest).filterMap
      (fun s => if s.signal = "" then none else some s.signal)
    let dominant := pyMaxByCount (signalCounts sigs)
    match summaries.find? (fun r =>
        r.trade_date == trade_date && r.symbol == symbol) with
    | some old =>
      let row := summaryWithValues old opening closing dominant
      (updateFirstSummary summaries trade_date symbol (fun _ => row), some row)
    | none =>
      let row := summaryWithValues (freshSummary trade_date symbol closing.expiry_date)
        opening closing dominant
      (summaries ++ [row], some row)

/-- Index of the first occurrence of a value in a list (the position used by
"order of first appearance" tie-breaking). -/
def firstIdx : List String → String → ℕ
  | [], _ => 0
  | s :: rest, a => if s = a then 0 else firstIdx rest a + 1

/-- `cleanup_old_snapshots(days_to_keep)` on a store `(snaps, summaries)` at
wall-clock `now` (epoch seconds; `timedelta(days=d)` is `d * 86400` seconds).
Deletes the snapshots with `timestamp < now - days_to_keep days`, leaves the
summary table untouched, and — the Python function body has no `return`
statement — returns `None`, not the deleted count (the count is only
printed).  The final component models the Python return value. -/
def cleanup_old_snapshots (now : ℤ) (days_to_keep : ℕ)
    (snaps : List Snapshot) (summaries : List DailySummary) :
    (List Snapshot × List DailySummary) × Option ℕ :=
  let cutoff : ℤ := now - (days_to_keep : ℤ) * 86400
  let kept := snaps.filter (fun s => ¬ (s.timestamp < cutoff))
  ((kept, summaries), none)

/-! ## Scheduler (`data_scheduler.py`)

One tick of `_scheduler_loop` after the `await asyncio.sleep(60)`, as a pure
transition on the loop's mutable state.  Wall-clock instants are local epoch
seconds; `_is_market_time` derives the weekday (Python Monday = 0; epoch day
0, 1970-01-01, was a Thursday = 3) and the time of day from them. -/

/-- `_is_market_time(now)`: weekday (Mon–Fri) and 09:00 ≤ time ≤ 18:00. -/
def isMarketTime (now : ℤ) : Bool :=
  let weekday := ((now.ediv 86400) + 3).emod 7
  let secOfDay := now.emod 86400
  if weekday ≥ 5 then false
  else decide (9 * 3600 ≤ secOfDay ∧ secOfDay ≤ 18 * 3600)

/-- The loop's mutable timing state: the local variables `last_oc_check`,
`last_mp_check` (initialised to `datetime.now()` before the loop) and the
instance fields `last_fyers_sync`, `last_fetch_time` (both `None` until
first set). -/
structure SchedulerState where
  lastOcCheck : ℤ
  lastMpCheck : ℤ
  lastFyersSync : Option ℤ
  lastFetchTime : Option ℤ
deriving DecidableEq

/-- Which task bodies one tick executed. -/
structure TickResult where
  state : SchedulerState
  ocRan : Bool
  mpRan : Bool
  syncRan : Bool
  fiiRan : Bool
deriving DecidableEq

/-- One iteration of the `while self._running` loop at wall-clock `now`:
if `now` is outside market hours the iteration `continue`s — no task,
including the 24-hour Fyers symbol sync, is even considered; otherwise each
task runs when its elapsed-time condition holds and its marker is advanced
to `now`. -/
def schedulerTick (st : SchedulerState) (now : ℤ) : TickResult :=
  if ¬ isMarketTime now then ⟨st, false, false, false, false⟩
  else
    let ocRan := decide (now - st.lastOcCheck ≥ 900)
    let mpRan := decide (now - st.lastMpCheck ≥ 1800)
    let syncRan :=
      match st.lastFyersSync with
      | none => true
      | some t => decide (now - t ≥ 86400)
    let fiiRan :=
      match st.lastFetchTime with
      | none => false
      | some t => decide (now - t ≥ 3600)
    ⟨⟨if ocRan then now else st.lastOcCheck,
      if mpRan then now else st.lastMpCheck,
      if syncRan then some now else st.lastFyersSync,
      if fiiRan then some now else st.lastFetchTime⟩,
     ocRan, mpRan, syncRan, fiiRan⟩

/-! ## Concrete sample data used by witnesses and counterexamples -/

/-- A concrete snapshot row with the given timestamp (other columns neutral). -/
def testSnap (ts : ℤ) : Snapshot :=
  ⟨ts, "NIFTY", ⟨2026, 2, 12⟩, 0, 0, 0, 0, 0, 0, 0, 0, 0, "LONG_BUILDUP", "WEAK", 0, 0, 0⟩

/-- A concrete aggregated-metrics value (spot 105, previous close 100, PCR 2). -/
def sampleResult : ProcessResult :=
  ⟨"NIFTY", ⟨2026, 2, 12⟩, 105, 100, 5, 5, 100, 200, 2, 0, 0, 0, []⟩

/-- A concrete quote payload with every field zero. -/
def sampleQuoteV : QuoteV := ⟨0, 0, 0, 0, 0, 0, 0, 0, 0⟩

/-- A concrete two-contract symbol map (one call, one put at strike 25000). -/
def sampleSmap : List (String × ℚ × String) :=
  [("CE25000", 25000, "CE"), ("PE25000", 25000, "PE")]

/-- A single call-side quote item carrying zero OI. -/
def sampleItems : List QuoteItem := [⟨"CE25000", sampleQuoteV⟩]

/-- A concrete snapshot row carrying a given signal. -/
def snapWith (ts : ℤ) (sig : String) : Snapshot :=
  ⟨ts, "NIFTY", ⟨2026, 2, 12⟩, 0, 0, 0, 0, 0, 0, 0, 0, 0, sig, "WEAK", 0, 0, 0⟩

/-- A three-snapshot day with signals [A, A, B]. -/
def sampleDay : List Snapshot :=
  [snapWith 1 "LONG_BUILDUP", snapWith 2 "LONG_BUILDUP", snapWith 3 "SHORT_COVERING"]

/-! ## Proof helpers -/

/-- Distance of Python `round` from its argument is at most a half. -/
lemma pyRound_abs (q : ℚ) : |(pyRound q : ℚ) - q| ≤ 1/2 := by
  have h0 : ((⌊q⌋ : ℚ)) ≤ q := Int.floor_le q
  have h1 : q < ⌊q⌋ + 1 := Int.lt_floor_add_one q
  unfold pyRound
  split_ifs with hc1 hc2 hc3 <;> rw [abs_le] <;> constructor <;> push_cast <;> linarith

/-- The minimisation loop, started at a candidate `b` with its pain recorded,
returns the first element of `b :: rest` attaining the minimum pain: the
list splits at the result, with every element strictly before it of strictly
larger pain and every element after of at-least-equal pain. -/
lemma maxPainGo_split (bd : Breakdown) (rest : List ℚ) : ∀ b : ℚ,
    ∃ l1 l2, b :: rest = l1 ++ maxPainGo bd rest (some (totalPain bd b)) b :: l2 ∧
      (∀ k ∈ l1, totalPain bd (maxPainGo bd rest (some (totalPain bd b)) b) < totalPain bd k) ∧
      (∀ k ∈ l2, totalPain bd (maxPainGo bd rest (some (totalPain bd b)) b) ≤ totalPain bd k) := by
  induction rest with
  | nil => exact fun b => ⟨[], [], rfl, by simp, by simp⟩
  | cons k rest ih =>
    intro b
    by_cases hck : totalPain bd k < totalPain bd b
    · have hres : maxPainGo bd (k :: rest) (some (totalPain bd b)) b
          = maxPainGo bd rest (some (totalPain bd k)) k := by
        simp [maxPainGo, hck]
      obtain ⟨l1, l2, heq, h1, h2⟩ := ih k
      rw [hres]
      refine ⟨b :: l1, l2, by rw [List.cons_append, ← heq], ?_, h2⟩
      intro x hx
      rcases List.mem_cons.mp hx with hxb | hxl
      · subst hxb
        rcases l1 with _ | ⟨k0, l1t⟩
        · have hk : k = maxPainGo bd rest (some (totalPain bd k)) k := by
            have := heq
            simp only [List.nil_append, List.cons.injEq] at this
            exact this.1
          rw [← hk]; exact hck
        · have hk0 : k = k0 := by
            have := heq
            simp only [List.cons_append, List.cons.injEq] at this
            exact this.1
          exact lt_trans (h1 k0 (by simp)) (hk0 ▸ hck)
      · exact h1 x hxl
    · have hres : maxPainGo bd (k :: rest) (some (totalPain bd b)) b
          = maxPainGo bd rest (some (totalPain bd b)) b := by
        simp [maxPainGo, hck]
      obtain ⟨l1, l2, heq, h1, h2⟩ := ih b
      rw [hres]
      rcases l1 with _ | ⟨b0, l1t⟩
      · have hrb : maxPainGo bd rest (some (totalPain bd b)) b = b ∧ l2 = rest := by
          have := heq
          simp only [List.nil_append, List.cons.injEq] at this
          exact ⟨this.1.symm, this.2.symm⟩
        refine ⟨[], k :: rest, by rw [hrb.1]; simp, by simp, ?_⟩
        intro x hx
        rcases List.mem_cons.mp hx with hxk | hxr
        · subst hxk; rw [hrb.1]; exact le_of_not_lt hck
        · rw [← hrb.2] at hxr; exact h2 x hxr
      · have hb0 : b = b0 ∧ rest = l1t ++ maxPainGo bd rest (some (totalPain bd b)) b :: l2 := by
          have := heq
          simp only [List.cons_append, List.cons.injEq] at this
          exact this
        refine ⟨b :: k :: l1t, l2, ?_, ?_, h2⟩
        · rw [List.cons_append, List.cons_append, ← hb0.2]
        · intro x hx
          have hb : totalPain bd (maxPainGo bd rest (some (totalPain bd b)) b)
              < totalPain bd b := by
            have := h1 b0 (by simp)
            rw [← hb0.1] at this
            exact this
          rcases List.mem_cons.mp hx with hxb | hx2
          · rw [hxb]; exact hb
          rcases List.mem_cons.mp hx2 with hxk | hxl
          · rw [hxk]
            exact lt_of_lt_of_le hb (le_of_not_lt hck)
          · exact h1 x (List.mem_cons_of_mem _ hxl)

/-- The strictly-greater maximum scan returns either its initial value (when
nothing beats it) or the first element attaining the maximum: the list
splits at the result, everything strictly before it strictly smaller,
everything after at most it. -/
lemma scanBest_split {α β : Type} [LinearOrder β] : ∀ (l : List (α × β)) (best : α × β),
    (scanBest best l = best ∧ ∀ k ∈ l, k.2 ≤ best.2) ∨
    (∃ l1 e l2, l = l1 ++ e :: l2 ∧ scanBest best l = e ∧ best.2 < e.2 ∧
      (∀ k ∈ l1, k.2 < e.2) ∧ (∀ k ∈ l2, k.2 ≤ e.2)) := by
  intro l
  induction l with
  | nil => exact fun best => Or.inl ⟨rfl, by simp⟩
  | cons e rest ih =>
    intro best
    by_cases h : best.2 < e.2
    · have hstep : scanBest best (e :: rest) = scanBest e rest := by
        simp [scanBest, h]
      rcases ih e with ⟨hsc, hall⟩ | ⟨l1, e2, l2, heq, hsc, hlt, hbef, haft⟩
      · exact Or.inr ⟨[], e, rest, rfl, by rw [hstep, hsc], h, by simp, hall⟩
      · refine Or.inr ⟨e :: l1, e2, l2, by rw [heq, List.cons_append],
          by rw [hstep, hsc], lt_trans h hlt, ?_, haft⟩
        intro k hk
        rcases List.mem_cons.mp hk with hke | hkl
        · rw [hke]; exact hlt
        · exact hbef k hkl
    · have hstep : scanBest best (e :: rest) = scanBest best rest := by
        simp [scanBest, h]
      rcases ih best with ⟨hsc, hall⟩ | ⟨l1, e2, l2, heq, hsc, hlt, hbef, haft⟩
      · refine Or.inl ⟨by rw [hstep, hsc], ?_⟩
        intro k hk
        rcases List.mem_cons.mp hk with hke | hkl
        · rw [hke]; exact le_of_not_lt h
        · exact hall k hkl
      · refine Or.inr ⟨e :: l1, e2, l2, by rw [heq, List.cons_append],
          by rw [hstep, hsc], hlt, ?_, haft⟩
        intro k hk
        rcases List.mem_cons.mp hk with hke | hkl
        · rw [hke]; exact lt_of_le_of_lt (le_of_not_lt h) hlt
        · exact hbef k hkl

/-- The loop's `highest_call_oi` tracker is the strictly-greater maximum scan
over the call-side (strike, OI) entries. -/
lemma processItems_highest_call (smap : List (String × ℚ × String)) :
    ∀ (items : List QuoteItem) (st : AggState),
      (processItems smap st items).highest_call_oi
        = scanBest st.highest_call_oi (callEntries smap items) := by
  intro items
  induction items with
  | nil => intro st; rfl
  | cons item rest ih =>
    intro st
    cases hlk : smap.lookup item.n with
    | none => simp [processItems, processItem, hlk, callEntries, ih]
    | some p =>
      obtain ⟨strike, ot⟩ := p
      by_cases hot : ot = "CE" <;>
        simp [processItems, processItem, hlk, hot, callEntries, scanBest, ih]

/-- The loop's `highest_put_oi` tracker is the strictly-greater maximum scan
over the put-side (strike, OI) entries. -/
lemma processItems_highest_put (smap : List (String × ℚ × String)) :
    ∀ (items : List QuoteItem) (st : AggState),
      (processItems smap st items).highest_put_oi
        = scanBest st.highest_put_oi (putEntries smap items) := by
  intro items
  induction items with
  | nil => intro st; rfl
  | cons item rest ih =>
    intro st
    cases hlk : smap.lookup item.n with
    | none => simp [processItems, processItem, hlk, putEntries, ih]
    | some p =>
      obtain ⟨strike, ot⟩ := p
      by_cases hot : ot = "CE" <;>
        simp [processItems, processItem, hlk, hot, putEntries, scanBest, ih]



lemma bdUpdate_lookup_self (k : ℚ) (f : StrikeData → StrikeData) :
    ∀ bd : Breakdown, (bdUpdate bd k f).lookup k = (bd.lookup k).map f := by
  intro bd
  induction bd with
  | nil => rfl
  | cons p rest ih =>
    obtain ⟨s, d⟩ := p
    by_cases hs : s = k
    · subst hs
      simp [bdUpdate, List.lookup]
    · have hbs : (k == s) = false := beq_eq_false_iff_ne.mpr (Ne.symm hs)
      simp [bdUpdate, List.lookup, hs, hbs, ih]

lemma bdUpdate_lookup_other (k k2 : ℚ) (hk : k2 ≠ k) (f : StrikeData → StrikeData) :
    ∀ bd : Breakdown, (bdUpdate bd k f).lookup k2 = bd.lookup k2 := by
  intro bd
  induction bd with
  | nil => rfl
  | cons p rest ih =>
    obtain ⟨s, d⟩ := p
    by_cases hs : s = k
    · subst hs
      have hbs : (k2 == s) = false := beq_eq_false_iff_ne.mpr hk
      simp [bdUpdate, List.lookup, hbs]
    · cases hc : (k2 == s) <;> simp [bdUpdate, List.lookup, hs, hc, ih]

lemma lookup_append {β : Type} (k : ℚ) (l2 : List (ℚ × β)) :
    ∀ l1 : List (ℚ × β), (l1 ++ l2).lookup k = (l1.lookup k).or (l2.lookup k) := by
  intro l1
  induction l1 with
  | nil => simp [List.lookup, Option.or]
  | cons p rest ih =>
    obtain ⟨s, d⟩ := p
    cases hc : (k == s) <;> simp [List.lookup, hc, ih, Option.or]

lemma bdInsertDefault_lookup_self (k : ℚ) (bd : Breakdown) :
    (bdInsertDefault bd k).lookup k
      = some ((bd.lookup k).getD StrikeData.init) := by
  unfold bdInsertDefault
  cases hl : bd.lookup k with
  | some d => simp [hl]
  | none => simp [hl, lookup_append, Option.or, List.lookup]

lemma bdInsertDefault_lookup_other (k k2 : ℚ) (hk : k2 ≠ k) (bd : Breakdown) :
    (bdInsertDefault bd k).lookup k2 = bd.lookup k2 := by
  unfold bdInsertDefault
  cases hl : (bd.lookup k).isSome with
  | true => simp
  | false =>
    have hbs : (k2 == k) = false := beq_eq_false_iff_ne.mpr hk
    simp [lookup_append, List.lookup, hbs, Option.or]
    cases bd.lookup k2 <;> simp



lemma processItem_keeps_key (smap : List (String × ℚ × String)) (st : AggState)
    (item : QuoteItem) (K : ℚ)
    (h : (st.strike_breakdown.lookup K).isSome = true) :
    ((processItem smap st item).strike_breakdown.lookup K).isSome = true := by
  unfold processItem
  cases hlk : smap.lookup item.n with
  | none => exact h
  | some p =>
    obtain ⟨strike, ot⟩ := p
    by_cases hK : K = strike
    · subst hK
      by_cases hot : ot = "CE" <;>
        simp [hot, bdUpdate_lookup_self, bdInsertDefault_lookup_self]
    · by_cases hot : ot = "CE" <;>
        simp [hot, bdUpdate_lookup_other _ _ hK, bdInsertDefault_lookup_other _ _ hK, h]

lemma processItems_keeps_key (smap : List (String × ℚ × String)) :
    ∀ (items : List QuoteItem) (st : AggState) (K : ℚ),
      (st.strike_breakdown.lookup K).isSome = true →
      ((processItems smap st items).strike_breakdown.lookup K).isSome = true := by
  intro items
  induction items with
  | nil => exact fun st K h => h
  | cons item rest ih =>
    intro st K h
    exact ih (processItem smap st item) K (processItem_keeps_key smap st item K h)

lemma processItems_mapped_present (smap : List (String × ℚ × String)) :
    ∀ (items : List QuoteItem) (st : AggState) (item : QuoteItem) (K : ℚ) (ot : String),
      item ∈ items → smap.lookup item.n = some (K, ot) →
      ((processItems smap st items).strike_breakdown.lookup K).isSome = true := by
  intro items
  induction items with
  | nil => intro st item K ot h; exact absurd h (List.not_mem_nil item)
  | cons item0 rest ih =>
    intro st item K ot hmem hlk
    rcases List.mem_cons.mp hmem with heq | hr
    · subst heq
      have hstep : processItems smap st (item :: rest)
          = processItems smap (processItem smap st item) rest := rfl
      rw [hstep]
      apply processItems_keeps_key smap rest (processItem smap st item) K
      unfold processItem
      rw [hlk]
      by_cases hot : ot = "CE" <;>
        simp [hot, bdUpdate_lookup_self, bdInsertDefault_lookup_self]
    · exact ih (processItem smap st item0) item K ot hr hlk



lemma processItems_put_zero (smap : List (String × ℚ × String)) :
    ∀ (items : List QuoteItem) (st : AggState) (K : ℚ),
      (∀ item ∈ items, ∀ s ot, smap.lookup item.n = some (s, ot) → s = K → ot = "CE") →
      (∀ d, st.strike_breakdown.lookup K = some d → d.put_oi = 0) →
      ∀ d, (processItems smap st items).strike_breakdown.lookup K = some d → d.put_oi = 0 := by
  intro items
  induction items with
  | nil => exact fun st K _ hinv => hinv
  | cons item rest ih =>
    intro st K hfree hinv
    have hstep : processItems smap st (item :: rest)
        = processItems smap (processItem smap st item) rest := rfl
    rw [hstep]
    refine ih (processItem smap st item) K
      (fun it hit s ot h1 h2 => hfree it (List.mem_cons_of_mem _ hit) s ot h1 h2) ?_
    intro d hd
    cases hlk : smap.lookup item.n with
    | none =>
      simp only [processItem, hlk] at hd
      exact hinv d hd
    | some p =>
      obtain ⟨strike, ot⟩ := p
      by_cases hK : strike = K
      · have hot : ot = "CE" := hfree item (List.mem_cons_self _ _) strike ot hlk hK
        subst hK
        subst hot
        simp [processItem, hlk] at hd
        rw [bdUpdate_lookup_self, bdInsertDefault_lookup_self] at hd
        simp only [Option.map_some', Option.some.injEq] at hd
        cases hold : st.strike_breakdown.lookup strike with
        | none =>
          rw [hold] at hd
          simp only [Option.getD_none] at hd
          rw [← hd]
          rfl
        | some d0 =>
          rw [hold] at hd
          simp only [Option.getD_some] at hd
          rw [← hd]
          exact hinv d0 hold
      · have hK2 : K ≠ strike := fun h => hK h.symm
        by_cases hot : ot = "CE" <;>
          simp [processItem, hlk, hot] at hd <;>
          rw [bdUpdate_lookup_other _ _ hK2, bdInsertDefault_lookup_other _ _ hK2] at hd <;>
          exact hinv d hd



lemma processItems_call_zero (smap : List (String × ℚ × String)) :
    ∀ (items : List QuoteItem) (st : AggState) (K : ℚ),
      (∀ item ∈ items, ∀ s ot, smap.lookup item.n = some (s, ot) → s = K → ot ≠ "CE") →
      (∀ d, st.strike_breakdown.lookup K = some d → d.call_oi = 0) →
      ∀ d, (processItems smap st items).strike_breakdown.lookup K = some d → d.call_oi = 0 := by
  intro items
  induction items with
  | nil => exact fun st K _ hinv => hinv
  | cons item rest ih =>
    intro st K hfree hinv
    have hstep : processItems smap st (item :: rest)
        = processItems smap (processItem smap st item) rest := rfl
    rw [hstep]
    refine ih (processItem smap st item) K
      (fun it hit s ot h1 h2 => hfree it (List.mem_cons_of_mem _ hit) s ot h1 h2) ?_
    intro d hd
    cases hlk : smap.lookup item.n with
    | none =>
      simp only [processItem, hlk] at hd
      exact hinv d hd
    | some p =>
      obtain ⟨strike, ot⟩ := p
      by_cases hK : strike = K
      · have hot : ot ≠ "CE" := hfree item (List.mem_cons_self _ _) strike ot hlk hK
        subst hK
        simp [processItem, hlk, hot] at hd
        rw [bdUpdate_lookup_self, bdInsertDefault_lookup_self] at hd
        simp only [Option.map_some', Option.some.injEq] at hd
        cases hold : st.strike_breakdown.lookup strike with
        | none =>
          rw [hold] at hd
          simp only [Option.getD_none] at hd
          rw [← hd]
          rfl
        | some d0 =>
          rw [hold] at hd
          simp only [Option.getD_some] at hd
          rw [← hd]
          exact hinv d0 hold
      · have hK2 : K ≠ strike := fun h => hK h.symm
        by_cases hot : ot = "CE" <;>
          simp [processItem, hlk, hot] at hd <;>
          rw [bdUpdate_lookup_other _ _ hK2, bdInsertDefault_lookup_other _ _ hK2] at hd <;>
          exact hinv d hd

lemma firstIdx_append_of_mem (a : String) : ∀ (p q : List String), a ∈ p →
    firstIdx (p ++ q) a = firstIdx p a := by
  intro p q hmem
  induction p with
  | nil => exact absurd hmem (List.not_mem_nil a)
  | cons s rest ih =>
    by_cases hs : s = a
    · simp [firstIdx, hs]
    · have : a ∈ rest := by
        rcases List.mem_cons.mp hmem with h | h
        · exact absurd h.symm hs
        · exact h
      simp [firstIdx, hs, ih this]

lemma firstIdx_lt_length (a : String) : ∀ p : List String, a ∈ p →
    firstIdx p a < p.length := by
  intro p hmem
  induction p with
  | nil => exact absurd hmem (List.not_mem_nil a)
  | cons s rest ih =>
    by_cases hs : s = a
    · simp [firstIdx, hs]
    · have : a ∈ rest := by
        rcases List.mem_cons.mp hmem with h | h
        · exact absurd h.symm hs
        · exact h
      simp only [firstIdx, hs, if_false, List.length_cons]
      exact Nat.succ_lt_succ (ih this)

lemma firstIdx_append_self (a : String) : ∀ p : List String, a ∉ p →
    firstIdx (p ++ [a]) a = p.length := by
  intro p hmem
  induction p with
  | nil => simp [firstIdx]
  | cons s rest ih =>
    have hs : ¬ s = a := fun h => hmem (by rw [h]; exact List.mem_cons_self _ _)
    have : a ∉ rest := fun h => hmem (List.mem_cons_of_mem _ h)
    simp [firstIdx, hs, ih this]

lemma bumpCount_cases (s : String) : ∀ acc : List (String × ℕ),
    (s ∉ acc.map Prod.fst ∧ bumpCount acc s = acc ++ [(s, 1)]) ∨
    (∃ a1 n a2, acc = a1 ++ (s, n) :: a2 ∧ s ∉ a1.map Prod.fst ∧
      bumpCount acc s = a1 ++ (s, n + 1) :: a2) := by
  intro acc
  induction acc with
  | nil => exact Or.inl ⟨by simp, rfl⟩
  | cons p rest ih =>
    obtain ⟨t, m⟩ := p
    by_cases ht : t = s
    · subst ht
      exact Or.inr ⟨[], m, rest, rfl, by simp, by simp [bumpCount]⟩
    · rcases ih with ⟨hnm, heq⟩ | ⟨a1, n, a2, heq, hnm, hbc⟩
      · refine Or.inl ⟨?_, ?_⟩
        · simp only [List.map_cons, List.mem_cons]
          rintro (h | h)
          · exact ht h.symm
          · exact hnm h
        · simp [bumpCount, ht, heq]
      · refine Or.inr ⟨(t, m) :: a1, n, a2, by rw [heq, List.cons_append], ?_, ?_⟩
        · simp only [List.map_cons, List.mem_cons]
          rintro (h | h)
          · exact ht h.symm
          · exact hnm h
        · simp [bumpCount, ht, hbc]



lemma inv_step (p : List String) (acc : List (String × ℕ)) (s : String)
    (h1 : ∀ pr ∈ acc, pr.2 = p.count pr.1)
    (h2 : ∀ t, t ∈ p ↔ t ∈ acc.map Prod.fst)
    (h3 : (acc.map Prod.fst).Nodup)
    (h4 : (acc.map Prod.fst).Pairwise (fun a b => firstIdx p a < firstIdx p b)) :
    (∀ pr ∈ bumpCount acc s, pr.2 = (p ++ [s]).count pr.1) ∧
    (∀ t, t ∈ p ++ [s] ↔ t ∈ (bumpCount acc s).map Prod.fst) ∧
    ((bumpCount acc s).map Prod.fst).Nodup ∧
    ((bumpCount acc s).map Prod.fst).Pairwise
      (fun a b => firstIdx (p ++ [s]) a < firstIdx (p ++ [s]) b) := by
  have hcount_ne : ∀ t : String, t ≠ s → (p ++ [s]).count t = p.count t := by
    intro t ht
    rw [List.count_append, List.count_singleton', if_neg (fun h => ht h.symm)]
    exact Nat.add_zero _
  have hcount_s : (p ++ [s]).count s = p.count s + 1 := by
    rw [List.count_append, List.count_singleton', if_pos rfl]
  rcases bumpCount_cases s acc with ⟨hnm, heq⟩ | ⟨a1, n, a2, hacc, hnm, heq⟩
  · -- new key: appended at the end
    have hsp : s ∉ p := fun h => hnm ((h2 s).mp h)
    have hkeys : (bumpCount acc s).map Prod.fst = acc.map Prod.fst ++ [s] := by
      rw [heq, List.map_append]
      rfl
    refine ⟨?_, ?_, ?_, ?_⟩
    · intro pr hpr
      rw [heq] at hpr
      rcases List.mem_append.mp hpr with hin | hin
      · have hne : pr.1 ≠ s := fun h => hnm (h ▸ List.mem_map_of_mem Prod.fst hin)
        rw [hcount_ne pr.1 hne]
        exact h1 pr hin
      · have : pr = (s, 1) := by simpa using hin
        rw [this, hcount_s, List.count_eq_zero.mpr hsp]
    · intro t
      rw [hkeys]
      simp only [List.mem_append, List.mem_singleton]
      constructor
      · rintro (h | h)
        · exact Or.inl ((h2 t).mp h)
        · exact Or.inr h
      · rintro (h | h)
        · exact Or.inl ((h2 t).mpr h)
        · exact Or.inr h
    · rw [hkeys]
      simp only [List.nodup_append, List.nodup_cons, List.not_mem_nil, not_false_iff,
        List.nodup_nil, and_true, true_and]
      refine ⟨h3, ?_⟩
      intro a ha
      simp only [List.mem_singleton]
      exact fun h => hnm (h ▸ ha)
    · rw [hkeys, List.pairwise_append]
      refine ⟨?_, by simp, ?_⟩
      · refine h4.imp_of_mem ?_
        intro a b ha hb hab
        have hap : a ∈ p := (h2 a).mpr ha
        have hbp : b ∈ p := (h2 b).mpr hb
        rw [firstIdx_append_of_mem a p [s] hap, firstIdx_append_of_mem b p [s] hbp]
        exact hab
      · intro a ha b hb
        rw [List.mem_singleton] at hb
        subst hb
        have hap : a ∈ p := (h2 a).mpr ha
        rw [firstIdx_append_of_mem a p [b] hap, firstIdx_append_self b p hsp]
        exact firstIdx_lt_length a p hap
  · -- existing key: its count is bumped in place
    have hkeys : (bumpCount acc s).map Prod.fst = acc.map Prod.fst := by
      rw [heq, hacc]
      simp
    have hsacc : s ∈ acc.map Prod.fst := by
      rw [hacc]
      simp
    have hsp : s ∈ p := (h2 s).mpr hsacc
    have hs_notin_a2 : s ∉ a2.map Prod.fst := by
      have := h3
      rw [hacc] at this
      simp only [List.map_append, List.map_cons, List.nodup_append, List.nodup_cons] at this
      exact this.2.1.1
    refine ⟨?_, ?_, ?_, ?_⟩
    · intro pr hpr
      rw [heq] at hpr
      rcases List.mem_append.mp hpr with hin | hin
      · have hne : pr.1 ≠ s := fun h => hnm (h ▸ List.mem_map_of_mem Prod.fst hin)
        rw [hcount_ne pr.1 hne]
        exact h1 pr (by rw [hacc]; exact List.mem_append_left _ hin)
      rcases List.mem_cons.mp hin with hin | hin
      · rw [hin, hcount_s]
        have := h1 (s, n) (by rw [hacc]; exact List.mem_append_right _ (List.mem_cons_self _ _))
        simp only at this
        rw [← this]
      · have hne : pr.1 ≠ s := fun h => hs_notin_a2 (h ▸ List.mem_map_of_mem Prod.fst hin)
        rw [hcount_ne pr.1 hne]
        exact h1 pr (by rw [hacc]; exact List.mem_append_right _ (List.mem_cons_of_mem _ hin))
    · intro t
      rw [hkeys]
      simp only [List.mem_append, List.mem_singleton]
      constructor
      · rintro (h | h)
        · exact (h2 t).mp h
        · exact h ▸ hsacc
      · intro h
        exact Or.inl ((h2 t).mpr h)
    · rw [hkeys]; exact h3
    · rw [hkeys]
      refine h4.imp_of_mem ?_
      intro a b ha hb hab
      have hap : a ∈ p := (h2 a).mpr ha
      have hbp : b ∈ p := (h2 b).mpr hb
      rw [firstIdx_append_of_mem a p [s] hap, firstIdx_append_of_mem b p [s] hbp]
      exact hab



lemma signalCountsAux_inv : ∀ (rest p : List String) (acc : List (String × ℕ)),
    (∀ pr ∈ acc, pr.2 = p.count pr.1) →
    (∀ t, t ∈ p ↔ t ∈ acc.map Prod.fst) →
    ((acc.map Prod.fst)).Nodup →
    ((acc.map Prod.fst)).Pairwise (fun a b => firstIdx p a < firstIdx p b) →
    (∀ pr ∈ signalCountsAux acc rest, pr.2 = (p ++ rest).count pr.1) ∧
    (∀ t, t ∈ p ++ rest ↔ t ∈ (signalCountsAux acc rest).map Prod.fst) ∧
    ((signalCountsAux acc rest).map Prod.fst).Nodup ∧
    ((signalCountsAux acc rest).map Prod.fst).Pairwise
      (fun a b => firstIdx (p ++ rest) a < firstIdx (p ++ rest) b) := by
  intro rest
  induction rest with
  | nil =>
    intro p acc h1 h2 h3 h4
    rw [List.append_nil]
    exact ⟨h1, h2, h3, h4⟩
  | cons s rest ih =>
    intro p acc h1 h2 h3 h4
    obtain ⟨g1, g2, g3, g4⟩ := inv_step p acc s h1 h2 h3 h4
    have hassoc : p ++ s :: rest = (p ++ [s]) ++ rest := by
      rw [List.append_assoc, List.singleton_append]
    rw [hassoc]
    exact ih (p ++ [s]) (bumpCount acc s) g1 g2 g3 g4

lemma signalCounts_inv (sigs : List String) :
    (∀ pr ∈ signalCounts sigs, pr.2 = sigs.count pr.1) ∧
    (∀ t, t ∈ sigs ↔ t ∈ (signalCounts sigs).map Prod.fst) ∧
    ((signalCounts sigs).map Prod.fst).Nodup ∧
    ((signalCounts sigs).map Prod.fst).Pairwise
      (fun a b => firstIdx sigs a < firstIdx sigs b) := by
  have h := signalCountsAux_inv sigs [] [] (by simp) (by simp) (by simp) (by simp)
  simpa [signalCounts] using h

lemma maxKeyGo_eq_scanBest : ∀ (rest : List (String × ℕ)) (s : String) (n : ℕ),
    maxKeyGo s n rest = (scanBest (s, n) rest).1 := by
  intro rest
  induction rest with
  | nil => intro s n; rfl
  | cons e rest ih =>
    intro s n
    obtain ⟨t, m⟩ := e
    by_cases h : n < m <;> simp [maxKeyGo, scanBest, h, ih]

lemma dominant_spec (sigs : List String) (hne : sigs ≠ []) :
    ∃ d, pyMaxByCount (signalCounts sigs) = some d ∧ d ∈ sigs ∧
      (∀ t ∈ sigs, sigs.count t ≤ sigs.count d) ∧
      (∀ t ∈ sigs, sigs.count t = sigs.count d → firstIdx sigs d ≤ firstIdx sigs t) := by
  obtain ⟨h1, h2, h3, h4⟩ := signalCounts_inv sigs
  obtain ⟨t0, ht0⟩ := List.exists_mem_of_ne_nil sigs hne
  have hcl_ne : signalCounts sigs ≠ [] := by
    intro hnil
    have := (h2 t0).mp ht0
    rw [hnil] at this
    exact absurd this (List.not_mem_nil t0)
  -- entry lookup: every signal has an entry with its count
  have hentry : ∀ t ∈ sigs, ∃ n, (t, n) ∈ signalCounts sigs ∧ n = sigs.count t := by
    intro t ht
    have := (h2 t).mp ht
    obtain ⟨⟨a, b⟩, hpr, hfst⟩ := List.mem_map.mp this
    subst hfst
    exact ⟨b, hpr, h1 (a, b) hpr⟩
  rcases hcl : signalCounts sigs with _ | ⟨⟨s0, n0⟩, cl⟩
  · exact absurd hcl hcl_ne
  rw [hcl] at h1 h2 h3 h4
  rcases scanBest_split cl (s0, n0) with ⟨hsc, hall⟩ | ⟨l1, e, l2, heq, hsc, hlt, hbef, haft⟩
  · -- the head entry wins
    refine ⟨s0, ?_, ?_, ?_, ?_⟩
    · show some (maxKeyGo s0 n0 cl) = some s0
      rw [maxKeyGo_eq_scanBest, hsc]
    · have := h1 (s0, n0) (List.mem_cons_self _ _)
      exact (h2 s0).mpr (by simp)
    · intro t ht
      obtain ⟨n, hn, hcnt⟩ := hentry t ht
      rw [hcl] at hn
      have hd0 : n0 = sigs.count s0 := h1 (s0, n0) (List.mem_cons_self _ _)
      rcases List.mem_cons.mp hn with hh | hh
      · have : t = s0 ∧ n = n0 := by
          constructor <;> [exact congrArg Prod.fst hh; exact congrArg Prod.snd hh]
        rw [this.1]
      · have : n ≤ n0 := hall (t, n) hh
        rw [← hcnt, ← hd0]
        exact this
    · intro t ht htc
      obtain ⟨n, hn, hcnt⟩ := hentry t ht
      rw [hcl] at hn
      rcases List.mem_cons.mp hn with hh | hh
      · have : t = s0 := congrArg Prod.fst hh
        rw [this]
      · have hkey : t ∈ cl.map Prod.fst := List.mem_map_of_mem Prod.fst hh
        have := List.pairwise_cons.mp h4
        exact le_of_lt (this.1 t hkey)
  · -- some later entry strictly beats everything before it
    refine ⟨e.1, ?_, ?_, ?_, ?_⟩
    · show some (maxKeyGo s0 n0 cl) = some e.1
      rw [maxKeyGo_eq_scanBest, hsc]
    · have hm : e ∈ (s0, n0) :: cl := by
        rw [heq]
        exact List.mem_cons_of_mem _ (List.mem_append_right _ (List.mem_cons_self _ _))
      exact (h2 e.1).mpr (List.mem_map_of_mem Prod.fst hm)
    · intro t ht
      obtain ⟨n, hn, hcnt⟩ := hentry t ht
      rw [hcl, heq] at hn
      have hde : e.2 = sigs.count e.1 := by
        have hm : e ∈ (s0, n0) :: cl := by
          rw [heq]
          exact List.mem_cons_of_mem _ (List.mem_append_right _ (List.mem_cons_self _ _))
        exact h1 e hm
      rw [← hcnt, ← hde]
      rcases List.mem_cons.mp hn with hh | hh
      · have : n = n0 := congrArg Prod.snd hh
        rw [this]
        exact le_of_lt hlt
      rcases List.mem_append.mp hh with hh | hh
      · exact le_of_lt (hbef (t, n) hh)
      rcases List.mem_cons.mp hh with hh | hh
      · exact le_of_eq (congrArg Prod.snd hh)
      · exact haft (t, n) hh
    · intro t ht htc
      obtain ⟨n, hn, hcnt⟩ := hentry t ht
      have hde : e.2 = sigs.count e.1 := by
        have hm : e ∈ (s0, n0) :: cl := by
          rw [heq]
          exact List.mem_cons_of_mem _ (List.mem_append_right _ (List.mem_cons_self _ _))
        exact h1 e hm
      have hne : n = e.2 := by
        rw [hcnt, hde, htc]
      rw [hcl, heq] at hn
      rcases List.mem_cons.mp hn with hh | hh
      · -- t's entry is the head: impossible, its count n0 < e.2 = n
        have hn0 : n = n0 := congrArg Prod.snd hh
        have h5 : n0 < e.2 := hlt
        exact absurd h5 (by omega)
      rcases List.mem_append.mp hh with hh | hh
      · -- t's entry in l1: strictly smaller, impossible
        have h5 : n < e.2 := hbef (t, n) hh
        exact absurd h5 (by omega)
      rcases List.mem_cons.mp hh with hh | hh
      · -- t's entry is e itself
        have : t = e.1 := congrArg Prod.fst hh
        rw [this]
      · -- t's entry in l2: pairwise order gives the tie-break
        have hkeys : ((s0, n0) :: cl).map Prod.fst
            = s0 :: (l1.map Prod.fst ++ e.1 :: l2.map Prod.fst) := by
          rw [heq]
          simp
        rw [hkeys] at h4
        have h4' := (List.pairwise_cons.mp h4).2
        rw [List.pairwise_append] at h4'
        have h4e := h4'.2.1
        have := (List.pairwise_cons.mp h4e).1 t (List.mem_map_of_mem Prod.fst hh)
        exact le_of_lt this




lemma updateFirst_split (d : PyDate) (sym : String) (row : DailySummary) :
    ∀ (l : List DailySummary) (old : DailySummary),
      l.find? (fun r => r.trade_date == d && r.symbol == sym) = some old →
      ∃ l1 l2, l = l1 ++ old :: l2 ∧
        (∀ x ∈ l1, ¬(x.trade_date = d ∧ x.symbol = sym)) ∧
        updateFirstSummary l d sym (fun _ => row) = l1 ++ row :: l2 := by
  intro l
  induction l with
  | nil => intro old h; exact absurd h (by simp)
  | cons r rest ih =>
    intro old h
    by_cases hk : r.trade_date = d ∧ r.symbol = sym
    · have hb : (r.trade_date == d && r.symbol == sym) = true := by
        simp [hk.1, hk.2]
      simp only [List.find?_cons, hb] at h
      have hro : r = old := Option.some.inj h
      subst hro
      refine ⟨[], rest, rfl, by simp, ?_⟩
      simp [updateFirstSummary, hk]
    · have hb : (r.trade_date == d && r.symbol == sym) = false := by
        cases hcc : (r.trade_date == d && r.symbol == sym)
        · rfl
        · exact absurd (by simpa [Bool.and_eq_true, beq_iff_eq] using hcc) hk
      simp only [List.find?_cons, hb] at h
      obtain ⟨l1, l2, hsplit, hl1, hupd⟩ := ih old h
      refine ⟨r :: l1, l2, by rw [hsplit, List.cons_append], ?_, ?_⟩
      · intro x hx
        rcases List.mem_cons.mp hx with hx | hx
        · rw [hx]; exact hk
        · exact hl1 x hx
      · simp [updateFirstSummary, hk, hupd]

lemma filterMap_signals : ∀ snaps : List Snapshot, (∀ s ∈ snaps, s.signal ≠ "") →
    snaps.filterMap (fun s => if s.signal = "" then none else some s.signal)
      = snaps.map Snapshot.signal := by
  intro snaps h
  induction snaps with
  | nil => rfl
  | cons s rest ih =>
    have hs : s.signal ≠ "" := h s (List.mem_cons_self _ _)
    simp [List.filterMap_cons, hs, ih (fun x hx => h x (List.mem_cons_of_mem _ hx))]

lemma daysInMonth_bounds (y m : ℕ) : 28 ≤ daysInMonth y m ∧ daysInMonth y m ≤ 31 := by
  unfold daysInMonth
  split_ifs <;> omega

lemma pyBackNat (w : ℕ) :
    ((((w : ℤ) - 3).emod 7).toNat) = (w + 4) % 7 := by
  show ((((w : ℤ) - 3) % 7).toNat) = (w + 4) % 7
  have h1 : ((w : ℤ) - 3) % 7 = ((w : ℤ) + 4) % 7 := by
    conv_lhs => rw [show (w : ℤ) - 3 = (w : ℤ) + 4 + 7 * (-1) by ring,
      Int.add_mul_emod_self_left]
  have h2 : ((w : ℤ) + 4) % 7 = (((w + 4) % 7 : ℕ) : ℤ) := by
    push_cast
    ring
  rw [h1]
  omega

lemma isMonthly_iff_spec (e : PyDate) (hv : ValidDate e) :
    isMonthlyExpiry e = true ↔ IsLastThursday e := by
  obtain ⟨y, m, d⟩ := e
  obtain ⟨hy, hm1, hm2, hd1, hd2⟩ := hv
  have hLb := daysInMonth_bounds y m
  have hser : ∀ dd : ℕ, pyWeekday ⟨y, m, dd⟩
      = (daysBeforeYear y + daysBeforeMonth y m + dd - 1) % 7 := fun dd => rfl
  have hunfold : isMonthlyExpiry ⟨y, m, d⟩ = true ↔
      d = daysInMonth y m
        - (((daysBeforeYear y + daysBeforeMonth y m + daysInMonth y m - 1) % 7 + 4) % 7) := by
    rw [show isMonthlyExpiry ⟨y, m, d⟩ = true ↔
        d = daysInMonth y m
          - (((((daysBeforeYear y + daysBeforeMonth y m + daysInMonth y m - 1) % 7 : ℕ) : ℤ)
              - 3).emod 7).toNat from by
      simp [isMonthlyExpiry, pyWeekday, toSerial, PyDate.mk.injEq]]
    rw [pyBackNat]
  try dsimp only at hd1 hd2
  rw [hunfold]
  unfold IsLastThursday
  constructor
  · intro h
    refine ⟨?_, ?_⟩
    · rw [hser]
      omega
    · rintro ⟨y2, m2, dd⟩ hy2 hm2b hv2 hthu2
      try dsimp only at hy2 hm2b hthu2 ⊢
      subst hy2
      subst hm2b
      rw [hser] at hthu2
      obtain ⟨_, _, _, hdd1, hdd2⟩ := hv2
      try dsimp only at hdd1 hdd2
      omega
  · rintro ⟨hthu, hall⟩
    have hback_le : (((daysBeforeYear y + daysBeforeMonth y m + daysInMonth y m - 1) % 7 + 4) % 7)
        ≤ 6 := Nat.le_of_lt_succ (Nat.mod_lt _ (by norm_num))
    try dsimp only at hthu
    rw [hser] at hthu
    have hb1 : 1 ≤ daysInMonth y m
        - (((daysBeforeYear y + daysBeforeMonth y m + daysInMonth y m - 1) % 7 + 4) % 7) := by
      obtain ⟨hx1, hx2⟩ := hLb
      omega
    have hb2 : daysInMonth y m
        - (((daysBeforeYear y + daysBeforeMonth y m + daysInMonth y m - 1) % 7 + 4) % 7)
        ≤ daysInMonth y m := Nat.sub_le _ _
    have hvd : ValidDate ⟨y, m, daysInMonth y m
        - (((daysBeforeYear y + daysBeforeMonth y m + daysInMonth y m - 1) % 7 + 4) % 7)⟩ :=
      ⟨hy, hm1, hm2, hb1, hb2⟩
    have hinst := hall ⟨y, m, daysInMonth y m
        - (((daysBeforeYear y + daysBeforeMonth y m + daysInMonth y m - 1) % 7 + 4) % 7)⟩
      rfl rfl hvd (by rw [hser]; omega)
    try dsimp only at hinst
    omega

/-! ## Claim theorems -/

/-- C3 (amended): for every spot and step > 0, `get_atm_strike` returns an
integer multiple of the step within step/2 of the spot, rounding the ratio
to the nearest integer with halves to even (Python's banker's rounding), not
half-up as claimed. -/
theorem claim_C3 (spot : ℚ) (step : ℤ) (hstep : 0 < step) :
    (∃ k : ℤ, get_atm_strike spot step = (k : ℚ) * (step : ℚ)) ∧
    |get_atm_strike spot step - spot| ≤ (step : ℚ) / 2 ∧
    (spot / (step : ℚ) - ⌊spot / (step : ℚ)⌋ = 1/2 →
      get_atm_strike spot step =
        (if ⌊spot / (step : ℚ)⌋ % 2 = 0 then (⌊spot / (step : ℚ)⌋ : ℚ)
          else (⌊spot / (step : ℚ)⌋ : ℚ) + 1) * (step : ℚ)) := by
  have hs0 : (0:ℚ) < (step:ℚ) := by exact_mod_cast hstep
  have hcancel : spot / (step:ℚ) * (step:ℚ) = spot := div_mul_cancel₀ _ (ne_of_gt hs0)
  refine ⟨⟨pyRound (spot / (step:ℚ)), rfl⟩, ?_, ?_⟩
  · have key : get_atm_strike spot step - spot
        = ((pyRound (spot / (step:ℚ)) : ℚ) - spot / (step:ℚ)) * (step:ℚ) := by
      rw [get_atm_strike, sub_mul, hcancel]
    rw [key, abs_mul, abs_of_pos hs0]
    have h2 := pyRound_abs (spot / (step:ℚ))
    nlinarith [abs_nonneg ((pyRound (spot / (step:ℚ)) : ℚ) - spot / (step:ℚ))]
  · intro htie
    rw [get_atm_strike, pyRound]
    rw [if_neg (by rw [htie]; norm_num), if_neg (by rw [htie]; norm_num)]
    split_ifs <;> push_cast <;> ring

/-- C3 witness: the amended theorem applied at spot 100, step 50. -/
theorem claim_C3_witness :
    (0 : ℤ) < 50 ∧
    ((∃ k : ℤ, get_atm_strike 100 50 = (k : ℚ) * ((50 : ℤ) : ℚ)) ∧
      |get_atm_strike 100 50 - 100| ≤ ((50 : ℤ) : ℚ) / 2 ∧
      ((100 : ℚ) / ((50 : ℤ) : ℚ) - ⌊(100 : ℚ) / ((50 : ℤ) : ℚ)⌋ = 1/2 →
        get_atm_strike 100 50 =
          (if ⌊(100 : ℚ) / ((50 : ℤ) : ℚ)⌋ % 2 = 0 then (⌊(100 : ℚ) / ((50 : ℤ) : ℚ)⌋ : ℚ)
            else (⌊(100 : ℚ) / ((50 : ℤ) : ℚ)⌋ : ℚ) + 1) * ((50 : ℤ) : ℚ))) :=
  ⟨by norm_num, claim_C3 100 50 (by norm_num)⟩

/-- C3 counterexample: at spot 25, step 50 the code returns 0 (25/50 = 0.5
rounds to the even integer 0) while round-half-up would give 50, refuting
the claimed half-up tie-break. -/
theorem claim_C3_counterexample :
    get_atm_strike 25 50 = 0 ∧ ((round ((25:ℚ)/50) : ℤ) : ℚ) * 50 = 50 ∧ (0:ℚ) ≠ 50 := by
  refine ⟨by norm_num [get_atm_strike, pyRound], ?_, by norm_num⟩
  norm_num [round_eq]

/-- C5 (confirmed): the classifier maps (priceChange, OIChange computed
against the given previous snapshot) through the documented 2×2 table, and
the strength is STRONG / MODERATE / WEAK by the PCR thresholds
1.5 / 0.6 / 1.2 / 0.8, independent of the signal inputs (it depends on the
PCR alone). -/
theorem claim_C5 (current : ProcessResult) (prev : Snapshot) :
    ((determine_signal current (some prev)).1 = "LONG_BUILDUP" ↔
      current.price_change > 0 ∧
        (current.total_call_oi - prev.total_call_oi) +
          (current.total_put_oi - prev.total_put_oi) > 0) ∧
    ((determine_signal current (some prev)).1 = "SHORT_COVERING" ↔
      current.price_change > 0 ∧
        (current.total_call_oi - prev.total_call_oi) +
          (current.total_put_oi - prev.total_put_oi) ≤ 0) ∧
    ((determine_signal current (some prev)).1 = "SHORT_BUILDUP" ↔
      current.price_change ≤ 0 ∧
        (current.total_call_oi - prev.total_call_oi) +
          (current.total_put_oi - prev.total_put_oi) > 0) ∧
    ((determine_signal current (some prev)).1 = "LONG_UNWINDING" ↔
      current.price_change ≤ 0 ∧
        (current.total_call_oi - prev.total_call_oi) +
          (current.total_put_oi - prev.total_put_oi) ≤ 0) ∧
    ((determine_signal current (some prev)).2 = "STRONG" ↔
      current.pcr > 1.5 ∨ current.pcr < 0.6) ∧
    ((determine_signal current (some prev)).2 = "MODERATE" ↔
      ¬(current.pcr > 1.5 ∨ current.pcr < 0.6) ∧
        (current.pcr > 1.2 ∨ current.pcr < 0.8)) ∧
    ((determine_signal current (some prev)).2 = "WEAK" ↔
      ¬(current.pcr > 1.5 ∨ current.pcr < 0.6) ∧
        ¬(current.pcr > 1.2 ∨ current.pcr < 0.8)) ∧
    (∀ (c2 : ProcessResult) (p2 : Option Snapshot), c2.pcr = current.pcr →
      (determine_signal c2 p2).2 = (determine_signal current (some prev)).2) := by
  simp only [determine_signal]
  refine ⟨?_, ?_, ?_, ?_, ?_, ?_, ?_, fun c2 p2 hpcr => by rw [hpcr]⟩ <;>
    (split_ifs <;> simp_all)

/-- C5 witness: strength at PCR 2 does not depend on the previous-snapshot
argument. -/
theorem claim_C5_witness :
    (determine_signal sampleResult none).2 = (determine_signal sampleResult (some (testSnap 0))).2 :=
  (claim_C5 sampleResult (testSnap 0)).2.2.2.2.2.2.2 sampleResult none rfl

/-- C1 (amended): `price_change` of the aggregated metrics is always
`spot - prev_close` (the quote provider's previous close), with or without a
prior snapshot; with no prior snapshot only the OI change defaults to 0, so
the classifier returns SHORT_COVERING when `price_change > 0` and
LONG_UNWINDING otherwise, with strength from the raw PCR alone. -/
theorem claim_C1 :
    (∀ (od : List QuoteItem) (spot prev_close : ℚ) (sym : String) (e : PyDate)
        (strikes : List ℚ) (smap : List (String × ℚ × String)),
      (process_option_data od spot prev_close sym e strikes smap).price_change
        = spot - prev_close) ∧
    (∀ current : ProcessResult,
      determine_signal current none =
        ((if current.price_change > 0 then "SHORT_COVERING" else "LONG_UNWINDING"),
          if current.pcr > 1.5 ∨ current.pcr < 0.6 then "STRONG"
          else if current.pcr > 1.2 ∨ current.pcr < 0.8 then "MODERATE" else "WEAK")) := by
  constructor
  · intro od spot pc sym e strikes smap; rfl
  · intro current
    by_cases h : current.price_change > 0 <;> simp [determine_signal, h]

/-- C1 counterexample: aggregating with spot 105 and provider previous close
100 and classifying with no prior snapshot yields `priceChange = 5` (not 0)
and signal SHORT_COVERING (not LONG_UNWINDING). -/
theorem claim_C1_counterexample :
    (process_option_data [] 105 100 "NIFTY" ⟨2026, 2, 12⟩ [] []).price_change = 5 ∧
    (determine_signal (process_option_data [] 105 100 "NIFTY" ⟨2026, 2, 12⟩ [] []) none).1
      = "SHORT_COVERING" ∧
    "SHORT_COVERING" ≠ "LONG_UNWINDING" := by
  refine ⟨by norm_num [process_option_data, processItems, initAggState], ?_, by decide⟩
  norm_num [process_option_data, determine_signal, processItems, initAggState]

/-- C9 (amended): the 24-hour Fyers symbol sync runs on the next tick on
which at least 24 hours have elapsed since its last run (or it has never
run) AND the tick is inside market hours; the market-hours gate applies to
it like to every other task. -/
theorem claim_C9 (st : SchedulerState) (now : ℤ)
    (hmkt : isMarketTime now = true)
    (helapsed : st.lastFyersSync = none ∨
      ∃ t, st.lastFyersSync = some t ∧ now - t ≥ 86400) :
    (schedulerTick st now).syncRan = true ∧
    (schedulerTick st now).state.lastFyersSync = some now := by
  rcases helapsed with h | ⟨t, ht, hel⟩
  · simp [schedulerTick, hmkt, h]
  · simp [schedulerTick, hmkt, ht, hel]

/-- C9 witness: the amended theorem on a Tuesday 10:00 tick (epoch 468000),
24+ hours after the last sync. -/
theorem claim_C9_witness :
    isMarketTime 468000 = true ∧
    ((⟨0, 0, some 0, none⟩ : SchedulerState).lastFyersSync = none ∨
      ∃ t, (⟨0, 0, some 0, none⟩ : SchedulerState).lastFyersSync = some t ∧
        (468000 : ℤ) - t ≥ 86400) ∧
    ((schedulerTick ⟨0, 0, some 0, none⟩ 468000).syncRan = true ∧
      (schedulerTick ⟨0, 0, some 0, none⟩ 468000).state.lastFyersSync = some 468000) :=
  ⟨by decide, Or.inr ⟨0, rfl, by decide⟩,
    claim_C9 ⟨0, 0, some 0, none⟩ 468000 (by decide) (Or.inr ⟨0, rfl, by decide⟩)⟩

/-- C9 counterexample: a Saturday 10:00 tick (epoch 2·86400 + 36000), more
than 24 hours after the last sync, executes no sync and leaves the sync
marker unchanged — the sync is not independent of market hours. -/
theorem claim_C9_counterexample :
    ((2 * 86400 + 36000 : ℤ) - 0 ≥ 86400) ∧
    isMarketTime (2 * 86400 + 36000) = false ∧
    (schedulerTick ⟨0, 0, some 0, none⟩ (2 * 86400 + 36000)).syncRan = false ∧
    (schedulerTick ⟨0, 0, some 0, none⟩ (2 * 86400 + 36000)).state.lastFyersSync = some 0 := by
  decide

/-- C8 (amended): `cleanup_old_snapshots` keeps exactly the snapshots not
strictly older than `now - days·86400` (one exactly `days` old is kept),
leaves the daily-summary table untouched, and returns `None` — the deleted
count is only logged, not returned. -/
theorem claim_C8 (now : ℤ) (days : ℕ) (snaps : List Snapshot)
    (summaries : List DailySummary) :
    (∀ s ∈ snaps,
      (s ∈ (cleanup_old_snapshots now days snaps summaries).1.1 ↔
        ¬ (s.timestamp < now - (days : ℤ) * 86400))) ∧
    (cleanup_old_snapshots now days snaps summaries).1.2 = summaries ∧
    (cleanup_old_snapshots now days snaps summaries).2 = none := by
  refine ⟨?_, rfl, rfl⟩
  intro s hs
  simp [cleanup_old_snapshots, List.mem_filter, hs]

/-- C8 witness: the amended theorem on a 2-row store; the row exactly 7 days
old is kept. -/
theorem claim_C8_witness :
    testSnap (93 * 86400) ∈ [testSnap (100 * 86400), testSnap (93 * 86400)] ∧
    (testSnap (93 * 86400) ∈ (cleanup_old_snapshots (100 * 86400) 7
        [testSnap (100 * 86400), testSnap (93 * 86400)] []).1.1 ↔
      ¬ ((testSnap (93 * 86400)).timestamp < 100 * 86400 - ((7 : ℕ) : ℤ) * 86400)) :=
  ⟨by decide,
    (claim_C8 (100 * 86400) 7 [testSnap (100 * 86400), testSnap (93 * 86400)] []).1
      (testSnap (93 * 86400)) (by decide)⟩

/-- C8 counterexample: on the {0, 6, 7, 8, 30}-day seed, `Cleanup(7)` does
remove exactly the 8- and 30-day rows (2 rows) — but it returns `None`, not
the count 2, refuting the returns-the-count part of the claim. -/
theorem claim_C8_counterexample :
    (cleanup_old_snapshots (100 * 86400) 7
        [testSnap (100 * 86400), testSnap (94 * 86400), testSnap (93 * 86400),
          testSnap (92 * 86400), testSnap (70 * 86400)] []).1.1
      = [testSnap (100 * 86400), testSnap (94 * 86400), testSnap (93 * 86400)] ∧
    (cleanup_old_snapshots (100 * 86400) 7
        [testSnap (100 * 86400), testSnap (94 * 86400), testSnap (93 * 86400),
          testSnap (92 * 86400), testSnap (70 * 86400)] []).2 = none ∧
    (cleanup_old_snapshots (100 * 86400) 7
        [testSnap (100 * 86400), testSnap (94 * 86400), testSnap (93 * 86400),
          testSnap (92 * 86400), testSnap (70 * 86400)] []).2 ≠ some 2 := by
  decide

/-- C4 (confirmed): for every ascending strike grid and every breakdown,
`_calculate_max_pain` returns a strike of the grid whose pain
(Σ over breakdown strikes S below K of (K-S)·callOI plus Σ above K of
(S-K)·putOI, as `totalPain`) is minimal, and it is the first such strike in
grid order: everything before it in the grid has strictly larger pain. -/
theorem claim_C4 (bd : Breakdown) (strikes : List ℚ) (hne : strikes ≠ [])
    (hasc : strikes.Pairwise (· < ·)) :
    calculate_max_pain bd strikes ∈ strikes ∧
    (∀ k ∈ strikes, totalPain bd (calculate_max_pain bd strikes) ≤ totalPain bd k) ∧
    ∃ l1 l2, strikes = l1 ++ calculate_max_pain bd strikes :: l2 ∧
      (∀ k ∈ l1, totalPain bd (calculate_max_pain bd strikes) < totalPain bd k) := by
  rcases strikes with _ | ⟨s0, rest⟩
  · exact absurd rfl hne
  · have hN : calculate_max_pain bd (s0 :: rest)
        = maxPainGo bd rest (some (totalPain bd s0)) s0 := by
      simp [calculate_max_pain, maxPainGo]
    obtain ⟨l1, l2, heq, h1, h2⟩ := maxPainGo_split bd rest s0
    rw [hN]
    refine ⟨?_, ?_, l1, l2, heq, h1⟩
    · rw [heq]; exact List.mem_append_right _ (List.mem_cons_self _ _)
    · intro k hk
      rw [heq] at hk
      rcases List.mem_append.mp hk with hk1 | hk2
      · exact le_of_lt (h1 k hk1)
      rcases List.mem_cons.mp hk2 with hkr | hkl
      · rw [hkr]
      · exact h2 k hkl

/-- C4 witness: the theorem applied to the empty breakdown and the grid
[1, 2, 3] (all pains 0, the first strike wins). -/
theorem claim_C4_witness :
    (([1, 2, 3] : List ℚ) ≠ [] ∧ ([1, 2, 3] : List ℚ).Pairwise (· < ·)) ∧
    (calculate_max_pain [] [1, 2, 3] ∈ ([1, 2, 3] : List ℚ) ∧
      (∀ k ∈ ([1, 2, 3] : List ℚ),
        totalPain [] (calculate_max_pain [] [1, 2, 3]) ≤ totalPain [] k) ∧
      ∃ l1 l2, ([1, 2, 3] : List ℚ) = l1 ++ calculate_max_pain [] [1, 2, 3] :: l2 ∧
        (∀ k ∈ l1, totalPain [] (calculate_max_pain [] [1, 2, 3]) < totalPain [] k)) :=
  ⟨⟨by simp, by norm_num⟩, claim_C4 [] [1, 2, 3] (by simp) (by norm_num)⟩

/-- C10 (confirmed): when every call-side OI of the batch is zero the
aggregator reports `highest_call_oi_strike = 0` (the initial placeholder),
symmetrically for puts; the placeholder is not a grid strike whenever 0 is
not in the grid; and because the tracker updates only on strictly greater
OI, when some OI is positive the reported strike is the first-processed
entry attaining the maximum OI of its side. -/
theorem claim_C10 (option_data : List QuoteItem) (spot prev_close : ℚ) (sym : String)
    (e : PyDate) (strikes : List ℚ) (smap : List (String × ℚ × String)) :
    ((∀ en ∈ callEntries smap option_data, en.2 = 0) →
      (process_option_data option_data spot prev_close sym e strikes smap).highest_call_oi_strike
        = 0) ∧
    ((∀ en ∈ putEntries smap option_data, en.2 = 0) →
      (process_option_data option_data spot prev_close sym e strikes smap).highest_put_oi_strike
        = 0) ∧
    ((∀ en ∈ callEntries smap option_data, en.2 = 0) → (0 : ℚ) ∉ strikes →
      (process_option_data option_data spot prev_close sym e strikes smap).highest_call_oi_strike
        ∉ strikes) ∧
    ((∃ en ∈ callEntries smap option_data, 0 < en.2) →
      ∃ l1 en l2, callEntries smap option_data = l1 ++ en :: l2 ∧
        (process_option_data option_data spot prev_close sym e strikes
            smap).highest_call_oi_strike = en.1 ∧
        0 < en.2 ∧ (∀ k ∈ l1, k.2 < en.2) ∧ (∀ k ∈ l2, k.2 ≤ en.2)) ∧
    ((∃ en ∈ putEntries smap option_data, 0 < en.2) →
      ∃ l1 en l2, putEntries smap option_data = l1 ++ en :: l2 ∧
        (process_option_data option_data spot prev_close sym e strikes
            smap).highest_put_oi_strike = en.1 ∧
        0 < en.2 ∧ (∀ k ∈ l1, k.2 < en.2) ∧ (∀ k ∈ l2, k.2 ≤ en.2)) := by
  have hc : (process_option_data option_data spot prev_close sym e strikes
      smap).highest_call_oi_strike
      = (scanBest ((0 : ℚ), (0 : ℚ)) (callEntries smap option_data)).1 := by
    simp [process_option_data, processItems_highest_call, initAggState]
  have hp : (process_option_data option_data spot prev_close sym e strikes
      smap).highest_put_oi_strike
      = (scanBest ((0 : ℚ), (0 : ℚ)) (putEntries smap option_data)).1 := by
    simp [process_option_data, processItems_highest_put, initAggState]
  have callZero : (∀ en ∈ callEntries smap option_data, en.2 = 0) →
      (process_option_data option_data spot prev_close sym e strikes
        smap).highest_call_oi_strike = 0 := by
    intro hz
    rw [hc]
    rcases scanBest_split (callEntries smap option_data) ((0 : ℚ), (0 : ℚ)) with
      ⟨hsc, _⟩ | ⟨l1, en, l2, heq, _, hlt, _, _⟩
    · rw [hsc]
    · have h0 : en.2 = 0 := hz en (heq ▸ List.mem_append_right _ (List.mem_cons_self _ _))
      rw [h0] at hlt
      exact absurd hlt (lt_irrefl 0)
  have putZero : (∀ en ∈ putEntries smap option_data, en.2 = 0) →
      (process_option_data option_data spot prev_close sym e strikes
        smap).highest_put_oi_strike = 0 := by
    intro hz
    rw [hp]
    rcases scanBest_split (putEntries smap option_data) ((0 : ℚ), (0 : ℚ)) with
      ⟨hsc, _⟩ | ⟨l1, en, l2, heq, _, hlt, _, _⟩
    · rw [hsc]
    · have h0 : en.2 = 0 := hz en (heq ▸ List.mem_append_right _ (List.mem_cons_self _ _))
      rw [h0] at hlt
      exact absurd hlt (lt_irrefl 0)
  refine ⟨callZero, putZero, ?_, ?_, ?_⟩
  · intro hz h0
    rw [callZero hz]
    exact h0
  · rintro ⟨en0, hen0, hpos0⟩
    rw [hc]
    rcases scanBest_split (callEntries smap option_data) ((0 : ℚ), (0 : ℚ)) with
      ⟨_, hall⟩ | ⟨l1, en, l2, heq, hsc, hlt, hbef, haft⟩
    · exact absurd (lt_of_lt_of_le hpos0 (hall en0 hen0)) (lt_irrefl 0)
    · exact ⟨l1, en, l2, heq, by rw [hsc], hlt, hbef, haft⟩
  · rintro ⟨en0, hen0, hpos0⟩
    rw [hp]
    rcases scanBest_split (putEntries smap option_data) ((0 : ℚ), (0 : ℚ)) with
      ⟨_, hall⟩ | ⟨l1, en, l2, heq, hsc, hlt, hbef, haft⟩
    · exact absurd (lt_of_lt_of_le hpos0 (hall en0 hen0)) (lt_irrefl 0)
    · exact ⟨l1, en, l2, heq, by rw [hsc], hlt, hbef, haft⟩

/-- C10 witness: a batch whose only call quote has zero OI reports the
placeholder strike 0. -/
theorem claim_C10_witness :
    (∀ en ∈ callEntries sampleSmap sampleItems, en.2 = 0) ∧
    (process_option_data sampleItems 100 100 "NIFTY" ⟨2026, 2, 12⟩ []
      sampleSmap).highest_call_oi_strike = 0 :=
  ⟨by decide,
    (claim_C10 sampleItems 100 100 "NIFTY" ⟨2026, 2, 12⟩ [] sampleSmap).1 (by decide)⟩

/-- C2 (amended): with an empty quote batch the aggregate has
totalCallOI = 0, totalPutOI = 0, PCR = 0 and an *empty* strikeBreakdown (grid
strikes with no quotes do not appear — the breakdown is keyed by quoted
strikes, not by the grid); a strike does appear whenever some batch item
resolves to it, and for a strike present in the breakdown a side with no
quote in the batch is zero (put side when only calls were quoted, call side
when only puts were). -/
theorem claim_C2 (option_data : List QuoteItem) (spot prev_close : ℚ) (sym : String)
    (e : PyDate) (strikes : List ℚ) (smap : List (String × ℚ × String)) (K : ℚ) :
    ((process_option_data [] spot prev_close sym e strikes smap).total_call_oi = 0 ∧
      (process_option_data [] spot prev_close sym e strikes smap).total_put_oi = 0 ∧
      (process_option_data [] spot prev_close sym e strikes smap).pcr = 0 ∧
      (process_option_data [] spot prev_close sym e strikes smap).strike_breakdown = []) ∧
    ((∃ item ∈ option_data, ∃ ot, smap.lookup item.n = some (K, ot)) →
      ((process_option_data option_data spot prev_close sym e strikes
        smap).strike_breakdown.lookup K).isSome = true) ∧
    ((∀ item ∈ option_data, ∀ s ot, smap.lookup item.n = some (s, ot) → s = K → ot = "CE") →
      ∀ d, (process_option_data option_data spot prev_close sym e strikes
        smap).strike_breakdown.lookup K = some d → d.put_oi = 0) ∧
    ((∀ item ∈ option_data, ∀ s ot, smap.lookup item.n = some (s, ot) → s = K → ot ≠ "CE") →
      ∀ d, (process_option_data option_data spot prev_close sym e strikes
        smap).strike_breakdown.lookup K = some d → d.call_oi = 0) := by
  refine ⟨?_, ?_, ?_, ?_⟩
  · refine ⟨rfl, rfl, ?_, rfl⟩
    norm_num [process_option_data, processItems, initAggState, pyRound3, pyRound]
  · rintro ⟨item, hmem, ot, hlk⟩
    have h := processItems_mapped_present smap option_data initAggState item K ot hmem hlk
    simpa [process_option_data] using h
  · intro hfree d hd
    refine processItems_put_zero smap option_data initAggState K hfree ?_ d ?_
    · intro d0 hd0
      simp [initAggState, List.lookup] at hd0
    · simpa [process_option_data] using hd
  · intro hfree d hd
    refine processItems_call_zero smap option_data initAggState K hfree ?_ d ?_
    · intro d0 hd0
      simp [initAggState, List.lookup] at hd0
    · simpa [process_option_data] using hd

/-- C2 witness: a batch with one call quote at strike 25000 yields a
breakdown entry at 25000 whose put side is zero. -/
theorem claim_C2_witness :
    (∃ item ∈ sampleItems, ∃ ot, sampleSmap.lookup item.n = some (25000, ot)) ∧
    ((process_option_data sampleItems 100 100 "NIFTY" ⟨2026, 2, 12⟩ []
      sampleSmap).strike_breakdown.lookup 25000).isSome = true ∧
    (∀ item ∈ sampleItems, ∀ s ot, sampleSmap.lookup item.n = some (s, ot) →
      s = 25000 → ot = "CE") ∧
    (∀ d, (process_option_data sampleItems 100 100 "NIFTY" ⟨2026, 2, 12⟩ []
      sampleSmap).strike_breakdown.lookup 25000 = some d → d.put_oi = 0) := by
  have hfree : ∀ item ∈ sampleItems, ∀ s ot, sampleSmap.lookup item.n = some (s, ot) →
      s = 25000 → ot = "CE" := by
    intro item hmem s ot hlk hs
    have hitem : item = ⟨"CE25000", sampleQuoteV⟩ := by
      simpa [sampleItems] using hmem
    subst hitem
    rw [show sampleSmap.lookup (QuoteItem.mk "CE25000" sampleQuoteV).n
        = some ((25000 : ℚ), "CE") from by decide] at hlk
    simp only [Option.some.injEq, Prod.mk.injEq] at hlk
    exact hlk.2.symm
  exact ⟨⟨⟨"CE25000", sampleQuoteV⟩, by decide, "CE", by decide⟩,
    (claim_C2 sampleItems 100 100 "NIFTY" ⟨2026, 2, 12⟩ [] sampleSmap 25000).2.1
      ⟨⟨"CE25000", sampleQuoteV⟩, by decide, "CE", by decide⟩,
    hfree,
    (claim_C2 sampleItems 100 100 "NIFTY" ⟨2026, 2, 12⟩ [] sampleSmap 25000).2.2.1 hfree⟩

/-- C2 counterexample: with an empty quote batch and the non-empty grid
[100], the grid strike 100 is absent from the returned strikeBreakdown,
refuting "every strike of the grid appears in the breakdown". -/
theorem claim_C2_counterexample :
    (100 : ℚ) ∈ ([100] : List ℚ) ∧
    (process_option_data [] 100 100 "NIFTY" ⟨2026, 2, 12⟩ [100] []).strike_breakdown = [] ∧
    (process_option_data [] 100 100 "NIFTY" ⟨2026, 2, 12⟩
      [100] []).strike_breakdown.lookup 100 = none := by
  exact ⟨by norm_num, rfl, rfl⟩

/-- C7 (confirmed): with an empty intraday range `create_daily_summary` is a
no-op returning the table unchanged; with a non-empty range it upserts
exactly one row keyed (trade_date, symbol) whose opening columns come from
the first snapshot, closing columns from the last, day deltas are
closing - opening, and whose dominantSignal is a most frequent signal of the
day with ties resolved in favour of the earliest first occurrence. -/
theorem claim_C7 (symbol : String) (trade_date : PyDate) (snaps : List Snapshot)
    (summaries : List DailySummary) (hne : snaps ≠ [])
    (hkey : summaries.countP
      (fun r => r.trade_date == trade_date && r.symbol == symbol) ≤ 1)
    (hsig : ∀ s ∈ snaps, s.signal ≠ "") :
    (∀ summaries2 : List DailySummary,
      create_daily_summary symbol trade_date [] summaries2 = (summaries2, none)) ∧
    ∃ row, (create_daily_summary symbol trade_date snaps summaries).2 = some row ∧
      row ∈ (create_daily_summary symbol trade_date snaps summaries).1 ∧
      (create_daily_summary symbol trade_date snaps summaries).1.countP
        (fun r => r.trade_date == trade_date && r.symbol == symbol) = 1 ∧
      (∀ r ∈ summaries, ¬(r.trade_date = trade_date ∧ r.symbol = symbol) →
        r ∈ (create_daily_summary symbol trade_date snaps summaries).1) ∧
      row.opening_call_oi = (snaps.head hne).total_call_oi ∧
      row.opening_put_oi = (snaps.head hne).total_put_oi ∧
      row.opening_pcr = (snaps.head hne).pcr ∧
      row.opening_spot = (snaps.head hne).spot_price ∧
      row.closing_call_oi = (snaps.getLast hne).total_call_oi ∧
      row.closing_put_oi = (snaps.getLast hne).total_put_oi ∧
      row.closing_pcr = (snaps.getLast hne).pcr ∧
      row.closing_spot = (snaps.getLast hne).spot_price ∧
      row.call_oi_day_change
        = (snaps.getLast hne).total_call_oi - (snaps.head hne).total_call_oi ∧
      row.put_oi_day_change
        = (snaps.getLast hne).total_put_oi - (snaps.head hne).total_put_oi ∧
      row.pcr_day_change = (snaps.getLast hne).pcr - (snaps.head hne).pcr ∧
      row.spot_day_change
        = (snaps.getLast hne).spot_price - (snaps.head hne).spot_price ∧
      ∃ dsig, row.dominant_signal = some dsig ∧
        dsig ∈ snaps.map Snapshot.signal ∧
        (∀ t ∈ snaps.map Snapshot.signal,
          (snaps.map Snapshot.signal).count t ≤ (snaps.map Snapshot.signal).count dsig) ∧
        (∀ t ∈ snaps.map Snapshot.signal,
          (snaps.map Snapshot.signal).count t = (snaps.map Snapshot.signal).count dsig →
            firstIdx (snaps.map Snapshot.signal) dsig ≤ firstIdx (snaps.map Snapshot.signal) t) := by
  refine ⟨fun summaries2 => rfl, ?_⟩
  rcases snaps with _ | ⟨s0, rest⟩
  · exact absurd rfl hne
  have hsigs : (s0 :: rest).filterMap (fun s => if s.signal = "" then none else some s.signal)
      = (s0 :: rest).map Snapshot.signal := filterMap_signals _ hsig
  have hmapne : (s0 :: rest).map Snapshot.signal ≠ [] := by simp
  obtain ⟨dsig, hdsig, hdmem, hdmax, hdtie⟩ := dominant_spec _ hmapne
  have hhead : (s0 :: rest).head hne = s0 := rfl
  have hlast : (s0 :: rest).getLast hne = rest.getLastD s0 := List.getLast_eq_getLastD s0 rest hne
  cases hfind : summaries.find? (fun r => r.trade_date == trade_date && r.symbol == symbol) with
  | none =>
    have hred : create_daily_summary symbol trade_date (s0 :: rest) summaries
        = (summaries ++ [summaryWithValues (freshSummary trade_date symbol
            (rest.getLastD s0).expiry_date) s0 (rest.getLastD s0)
            (pyMaxByCount (signalCounts ((s0 :: rest).map Snapshot.signal)))],
          some (summaryWithValues (freshSummary trade_date symbol
            (rest.getLastD s0).expiry_date) s0 (rest.getLastD s0)
            (pyMaxByCount (signalCounts ((s0 :: rest).map Snapshot.signal))))) := by
      simp only [create_daily_summary, hsigs, hfind]
    rw [hred]
    set row := summaryWithValues (freshSummary trade_date symbol
      (rest.getLastD s0).expiry_date) s0 (rest.getLastD s0)
      (pyMaxByCount (signalCounts ((s0 :: rest).map Snapshot.signal))) with hrow
    have hzero : summaries.countP
        (fun r => r.trade_date == trade_date && r.symbol == symbol) = 0 := by
      rw [List.countP_eq_zero]
      exact List.find?_eq_none.mp hfind
    have hrowkey : (row.trade_date == trade_date && row.symbol == symbol) = true := by
      simp [hrow, summaryWithValues, freshSummary]
    refine ⟨row, rfl, by simp, ?_, ?_, rfl, rfl, rfl, rfl, ?_, ?_, ?_, ?_, ?_, ?_, ?_, ?_, ?_⟩
    · rw [List.countP_append, hzero, List.countP_cons, List.countP_nil, hrowkey]
      simp
    · intro r hr hnk
      exact List.mem_append_left _ hr
    · rw [hlast]; rfl
    · rw [hlast]; rfl
    · rw [hlast]; rfl
    · rw [hlast]; rfl
    · rw [hlast, hhead]; rfl
    · rw [hlast, hhead]; rfl
    · rw [hlast, hhead]; rfl
    · rw [hlast, hhead]; rfl
    · exact ⟨dsig, hdsig, hdmem, hdmax, hdtie⟩
  | some old =>
    have hred : create_daily_summary symbol trade_date (s0 :: rest) summaries
        = (updateFirstSummary summaries trade_date symbol
            (fun _ => summaryWithValues old s0 (rest.getLastD s0)
              (pyMaxByCount (signalCounts ((s0 :: rest).map Snapshot.signal)))),
          some (summaryWithValues old s0 (rest.getLastD s0)
            (pyMaxByCount (signalCounts ((s0 :: rest).map Snapshot.signal))))) := by
      simp only [create_daily_summary, hsigs, hfind]
    rw [hred]
    set row := summaryWithValues old s0 (rest.getLastD s0)
      (pyMaxByCount (signalCounts ((s0 :: rest).map Snapshot.signal))) with hrow
    obtain ⟨l1, l2, hsplit, hl1, hupd⟩ := updateFirst_split trade_date symbol row summaries old hfind
    have holdkey : (old.trade_date == trade_date && old.symbol == symbol) = true := by
      have h := List.find?_some hfind
      exact h
    have holdprop : old.trade_date = trade_date ∧ old.symbol = symbol := by
      simpa [Bool.and_eq_true, beq_iff_eq] using holdkey
    have hrowkey : (row.trade_date == trade_date && row.symbol == symbol) = true := by
      simp [hrow, summaryWithValues, holdprop.1, holdprop.2]
    have hl1zero : l1.countP (fun r => r.trade_date == trade_date && r.symbol == symbol) = 0 := by
      rw [List.countP_eq_zero]
      intro a ha
      intro hb
      exact hl1 a ha (by simpa [Bool.and_eq_true, beq_iff_eq] using hb)
    have hl2zero : l2.countP (fun r => r.trade_date == trade_date && r.symbol == symbol) = 0 := by
      have hsum : summaries.countP (fun r => r.trade_date == trade_date && r.symbol == symbol)
          = l1.countP (fun r => r.trade_date == trade_date && r.symbol == symbol)
            + (l2.countP (fun r => r.trade_date == trade_date && r.symbol == symbol) + 1) := by
        rw [hsplit, List.countP_append, List.countP_cons, holdkey]
        simp [Nat.add_comm]
      rw [hsum, hl1zero] at hkey
      omega
    refine ⟨row, rfl, ?_, ?_, ?_, rfl, rfl, rfl, rfl, ?_, ?_, ?_, ?_, ?_, ?_, ?_, ?_, ?_⟩
    · rw [hupd]
      exact List.mem_append_right _ (List.mem_cons_self _ _)
    · rw [hupd, List.countP_append, List.countP_cons, hl1zero, hl2zero, hrowkey]
      simp
    · intro r hr hnk
      rw [hupd]
      rw [hsplit] at hr
      rcases List.mem_append.mp hr with hin | hin
      · exact List.mem_append_left _ hin
      rcases List.mem_cons.mp hin with hin | hin
      · exact absurd (hin ▸ holdprop) hnk
      · exact List.mem_append_right _ (List.mem_cons_of_mem _ hin)
    · rw [hlast]; rfl
    · rw [hlast]; rfl
    · rw [hlast]; rfl
    · rw [hlast]; rfl
    · rw [hlast, hhead]; rfl
    · rw [hlast, hhead]; rfl
    · rw [hlast, hhead]; rfl
    · rw [hlast, hhead]; rfl
    · exact ⟨dsig, hdsig, hdmem, hdmax, hdtie⟩

/-- C7 witness: on the empty range the table is unchanged, and on the
concrete [LONG_BUILDUP, LONG_BUILDUP, SHORT_COVERING] day the upserted row
has dominantSignal LONG_BUILDUP and the table holds exactly one keyed row. -/
theorem claim_C7_witness :
    (sampleDay ≠ [] ∧
      ([] : List DailySummary).countP
        (fun r => r.trade_date == (⟨2026, 2, 12⟩ : PyDate) && r.symbol == "NIFTY") ≤ 1 ∧
      (∀ s ∈ sampleDay, s.signal ≠ "")) ∧
    create_daily_summary "NIFTY" ⟨2026, 2, 12⟩ [] [] = ([], none) ∧
    ∃ row, (create_daily_summary "NIFTY" ⟨2026, 2, 12⟩ sampleDay []).2 = some row ∧
      (create_daily_summary "NIFTY" ⟨2026, 2, 12⟩ sampleDay []).1.countP
        (fun r => r.trade_date == (⟨2026, 2, 12⟩ : PyDate) && r.symbol == "NIFTY") = 1 ∧
      row.dominant_signal = some "LONG_BUILDUP" := by
  have hne : sampleDay ≠ [] := by simp [sampleDay]
  have hkey : ([] : List DailySummary).countP
      (fun r => r.trade_date == (⟨2026, 2, 12⟩ : PyDate) && r.symbol == "NIFTY") ≤ 1 := by
    simp
  have hsig : ∀ s ∈ sampleDay, s.signal ≠ "" := by decide
  obtain ⟨hemp, row, hret, hmem, hcount, hpres, f1, f2, f3, f4, f5, f6, f7, f8, f9, f10,
    f11, f12, dsig, hd, hdmem, hdmax, hdtie⟩ :=
    claim_C7 "NIFTY" ⟨2026, 2, 12⟩ sampleDay [] hne hkey hsig
  have hdval : dsig = "LONG_BUILDUP" := by
    have hLB : ("LONG_BUILDUP" : String) ∈ sampleDay.map Snapshot.signal := by decide
    have h2 := hdmax "LONG_BUILDUP" hLB
    have hcases : dsig = "LONG_BUILDUP" ∨ dsig = "SHORT_COVERING" := by
      have := hdmem
      simp [sampleDay, snapWith] at this
      tauto
    rcases hcases with h | h
    · exact h
    · subst h
      revert h2
      decide
  exact ⟨⟨hne, hkey, hsig⟩, hemp [], row, hret, hcount, by rw [hd, hdval]⟩

/-- C6 (confirmed): `format_option_symbol` emits the monthly encoding
(underlying + YY + three-letter month + strike + type after the `NSE:` venue
prefix) exactly when the expiry is the last Thursday of its calendar month,
and otherwise the weekly encoding with month-code 1-9 for Jan-Sep and the
fixed letters O/N/D for Oct/Nov/Dec plus the 2-digit day; the known weekly
expiry 2026-02-12 and monthly expiry 2026-02-26 produce the fixed literals. -/
theorem claim_C6 :
    (∀ e : PyDate, ValidDate e → (isMonthlyExpiry e = true ↔ IsLastThursday e)) ∧
    (∀ (index : String) (e : PyDate) (strike : ℚ) (ot : String),
      isMonthlyExpiry e = true →
      format_option_symbol index e strike ot
        = "NSE:" ++ index ++ lastTwoChars (toString e.year) ++ MONTH_MAP e.month
            ++ toString (pyInt strike) ++ ot) ∧
    (∀ (index : String) (e : PyDate) (strike : ℚ) (ot : String),
      isMonthlyExpiry e = false →
      format_option_symbol index e strike ot
        = "NSE:" ++ index ++ lastTwoChars (toString e.year) ++ WEEKLY_MONTH_CODES e.month
            ++ zfill2 e.day ++ toString (pyInt strike) ++ ot) ∧
    (WEEKLY_MONTH_CODES 10 = "O" ∧ WEEKLY_MONTH_CODES 11 = "N" ∧
      WEEKLY_MONTH_CODES 12 = "D") ∧
    (∀ m : ℕ, 1 ≤ m → m ≤ 9 → WEEKLY_MONTH_CODES m = toString m) ∧
    (isMonthlyExpiry ⟨2026, 2, 12⟩ = false ∧
      format_option_symbol "NIFTY" ⟨2026, 2, 12⟩ 25000 "CE" = "NSE:NIFTY2621225000CE") ∧
    (isMonthlyExpiry ⟨2026, 2, 26⟩ = true ∧
      format_option_symbol "NIFTY" ⟨2026, 2, 26⟩ 25000 "CE" = "NSE:NIFTY26FEB25000CE") := by
  have hint : pyInt (25000 : ℚ) = 25000 := by norm_num [pyInt]
  have hw : isMonthlyExpiry ⟨2026, 2, 12⟩ = false := by decide
  have hmth : isMonthlyExpiry ⟨2026, 2, 26⟩ = true := by decide
  refine ⟨isMonthly_iff_spec, ?_, ?_, by decide, ?_, ⟨hw, ?_⟩, ⟨hmth, ?_⟩⟩
  · intro index e strike ot h
    simp [format_option_symbol, h]
  · intro index e strike ot h
    simp [format_option_symbol, h]
  · intro m h1 h2
    interval_cases m <;> rfl
  · simp only [format_option_symbol, hw, Bool.false_eq_true, if_false, hint]
    decide
  · simp only [format_option_symbol, hmth, if_true, hint]
    decide

/-- C6 witness: the last-Thursday equivalence applied at the valid date
2026-02-26, plus the concrete weekly literal. -/
theorem claim_C6_witness :
    (ValidDate ⟨2026, 2, 26⟩ ∧
      (isMonthlyExpiry ⟨2026, 2, 26⟩ = true ↔ IsLastThursday ⟨2026, 2, 26⟩)) ∧
    (isMonthlyExpiry ⟨2026, 2, 12⟩ = false ∧
      format_option_symbol "NIFTY" ⟨2026, 2, 12⟩ 25000 "CE" = "NSE:NIFTY2621225000CE") :=
  ⟨⟨by decide, claim_C6.1 ⟨2026, 2, 26⟩ (by decide)⟩, claim_C6.2.2.2.2.2.1⟩

end StockServs
